import Mathlib

/-!
# pw: deterministic HMAC password derivation

A shallow embedding of the derivation pipeline of `pw`
(`base62_encoder.go`, `segment_normalizer.go`, `policy.go`, `main.go`)
and the properties of it that are settled here.

Conventions of the embedding:

* a Go `string` / `[]byte` is a list of byte values (`Bytes`, natural numbers
  below 256 for a well-formed value);
* a Go run-time panic (index or slice out of range, the explicit
  `panic("encoded string too short")`) is an error of `Except Panic`;
* `math/big` integers are natural numbers;
* SHA-256 and HMAC-SHA256 are parameters: any function into `[32]byte`;
* file and terminal input (the secret, the parsed site policy) are parameters.
-/

namespace Pw

/-- Ways in which a run of the program can fail to return a value. -/
inductive Panic where
  | indexOutOfRange
  | sliceOutOfRange
  | encodedTooShort
  | outOfFuel
  deriving DecidableEq, Repr

deriving instance DecidableEq for Except

/-- Byte strings: Go `string` and `[]byte`. -/
abbrev Bytes := List Nat

/-- A 32-byte array, the result type of `sha256.Sum256`. -/
abbrev Digest := Fin 32 → Fin 256

/-- The bytes of a digest, as the slice `h.Sum(nil)` or `h[:]`. -/
def Digest.bytes (d : Digest) : Bytes := List.ofFn (fun i => (d i).val)

/-- The bytes of a string literal of the source (all of them ASCII, one byte for
each character). -/
def bytesOf (s : String) : Bytes := s.toList.map Char.toNat

/-- Go `s[i]` on a string or slice: panics when `i` is out of range. -/
def byteAt (s : Bytes) (i : Nat) : Except Panic Nat :=
  match s[i]? with
  | some c => .ok c
  | none => .error .indexOutOfRange

/-- Go `b[i] = v` on a slice: panics when `i` is out of range. -/
def setAt (b : Bytes) (i : Nat) (v : Nat) : Except Panic Bytes :=
  if i < b.length then .ok (b.set i v) else .error .indexOutOfRange

/-- Go `s[lo:hi]`: panics unless `lo ≤ hi ≤ len(s)`. -/
def slice (s : Bytes) (lo hi : Nat) : Except Panic Bytes :=
  if lo ≤ hi ∧ hi ≤ s.length then .ok ((s.take hi).drop lo) else .error .sliceOutOfRange

/-- Go `byte(x)` of an `int`. -/
def toByte (x : Int) : Nat := (x % 256).toNat

/-- Go `strings.IndexByte`: the first index of `c` in `s`, or `-1`. -/
def IndexByte (s : Bytes) (c : Nat) : Int :=
  if c ∈ s then (s.indexOf c : Int) else -1

/-! ## base62_encoder.go -/

/-- The constant `base62Alphabet`. -/
def base62Alphabet : Bytes :=
  bytesOf "abcdefghijklmnopqrstuvwxyzABCDEFGHIJKLMNOPQRSTUVWXYZ0123456789"

/-- `new(big.Int).SetBytes(b)`: the bytes read as a big-endian unsigned integer. -/
def SetBytes (b : Bytes) : Nat := b.foldl (fun n x => n * 256 + x) 0

/-- The digit loop of `Encode`: `for n.Cmp(zero) > 0 { q, r = DivMod(n, 62); n = q;
out = append(out, base62Alphabet[r]) }`, bounded by `fuel` iterations. -/
def encodeLoop : Nat → Nat → Bytes → Except Panic Bytes
  | 0, n, out => if n > 0 then .error .outOfFuel else .ok out
  | fuel + 1, n, out =>
    if n > 0 then
      let q := n / 62
      let r := n % 62
      match byteAt base62Alphabet r with
      | .ok c => encodeLoop fuel q (out ++ [c])
      | .error e => .error e
    else .ok out

/-- The reversal loop of `Encode`:
`for i, j := 0, len(out)-1; i < j; i, j = i+1, j-1 { out[i], out[j] = out[j], out[i] }`. -/
def swapLoop : Nat → Nat → Nat → Bytes → Except Panic Bytes
  | 0, i, j, out => if i < j then .error .outOfFuel else .ok out
  | fuel + 1, i, j, out =>
    if i < j then
      match byteAt out j, byteAt out i with
      | .ok x, .ok y =>
        match setAt out i x with
        | .ok out1 =>
          match setAt out1 j y with
          | .ok out2 => swapLoop fuel (i + 1) (j - 1) out2
          | .error e => .error e
        | .error e => .error e
      | .error e, _ => .error e
      | _, .error e => .error e
    else .ok out

/-- `Base62Encoder.Encode`. The digit loop divides a positive `n` by 62 each
time, so `n` iterations are enough; the reversal loop runs `len(out)/2` times. -/
def Encode (b : Bytes) : Except Panic Bytes :=
  if b.length = 0 then .ok []
  else
    let n := SetBytes b
    if n = 0 then
      match byteAt base62Alphabet 0 with
      | .ok c => .ok [c]
      | .error e => .error e
    else
      match encodeLoop n n [] with
      | .ok out => swapLoop out.length 0 (out.length - 1) out
      | .error e => .error e

/-! ## Go `range` over a string

`for i, r := range seg` decodes one UTF-8 encoded rune at byte offset `i` and
advances by its width; a byte that does not start a valid encoding yields
`utf8.RuneError` with width 1. -/

/-- The rune `utf8.RuneError`, U+FFFD. -/
def RuneError : Nat := 0xFFFD

/-- The multi-byte part of Go `utf8.DecodeRuneInString`, for a lead byte `s0`
that announces `sz` bytes and accepts a second byte in `lo..hi`; `rest` is the
string after the lead byte. Every further byte must be a continuation byte
`0x80..0xBF`; a short or malformed sequence yields `RuneError` with width 1. -/
def decodeMulti (s0 sz lo hi : Nat) (rest : Bytes) : Nat × Nat :=
  if rest.length + 1 < sz then (RuneError, 1)
  else
    match rest with
    | [] => (RuneError, 1)
    | s1 :: rest1 =>
      if s1 < lo ∨ hi < s1 then (RuneError, 1)
      else if sz ≤ 2 then ((s0 % 32) * 64 + s1 % 64, 2)
      else
        match rest1 with
        | [] => (RuneError, 1)
        | s2 :: rest2 =>
          if s2 < 0x80 ∨ 0xBF < s2 then (RuneError, 1)
          else if sz ≤ 3 then ((s0 % 16) * 4096 + (s1 % 64) * 64 + s2 % 64, 3)
          else
            match rest2 with
            | [] => (RuneError, 1)
            | s3 :: _ =>
              if s3 < 0x80 ∨ 0xBF < s3 then (RuneError, 1)
              else ((s0 % 8) * 262144 + (s1 % 64) * 4096 + (s2 % 64) * 64 + s3 % 64, 4)

/-- Go `utf8.DecodeRuneInString`: the first rune of `s` and its width in bytes.
A byte below `0x80` is itself; the lead bytes `0xC2..0xF4` fix the width
(the table `first`) and the accepted range of the second byte (the table
`acceptRanges`); any other lead byte yields `RuneError` with width 1. -/
def decodeRune : Bytes → Nat × Nat
  | [] => (RuneError, 0)
  | s0 :: rest =>
    if s0 < 0x80 then (s0, 1)
    else if s0 < 0xC2 ∨ 0xF4 < s0 then (RuneError, 1)
    else
      let sz := if s0 < 0xE0 then 2 else if s0 < 0xF0 then 3 else 4
      let lo := if s0 = 0xE0 then 0xA0 else if s0 = 0xF0 then 0x90 else 0x80
      let hi := if s0 = 0xED then 0x9F else if s0 = 0xF4 then 0x8F else 0xBF
      decodeMulti s0 sz lo hi rest

/-! ## segment_normalizer.go -/

/-- The constants `SegmentUpper`, `SegmentLower`, `SegmentDigit` (`iota`). -/
def SegmentUpper : Nat := 0

/-- See `SegmentUpper`. -/
def SegmentLower : Nat := 1

/-- See `SegmentUpper`. -/
def SegmentDigit : Nat := 2

/-- The body of the loop of `normalizeSegmentByType` for the rune `r` at byte
offset `i`: `ch := byte(r)`, `idx := max(IndexByte(base62Alphabet, ch), 0)`, then
the `switch` on the segment type (no case, no write). -/
def normalizeRune (t : Nat) (out : Bytes) (i : Nat) (r : Nat) : Except Panic Bytes :=
  let ch := r % 256
  let idx := max (IndexByte base62Alphabet ch) 0
  if t = SegmentUpper then setAt out i (toByte (65 + idx % 26))
  else if t = SegmentLower then setAt out i (toByte (97 + idx % 26))
  else if t = SegmentDigit then setAt out i (toByte (48 + idx % 10))
  else .ok out

/-- The loop `for i, r := range seg` of `normalizeSegmentByType`; `rest` is
`seg[i:]`. Each iteration consumes at least one byte, so `len(seg)` iterations
are enough. -/
def rangeLoop (t : Nat) : Nat → Nat → Bytes → Bytes → Except Panic Bytes
  | 0, _, rest, out => if rest.length = 0 then .ok out else .error .outOfFuel
  | fuel + 1, i, rest, out =>
    if rest.length = 0 then .ok out
    else
      let (r, w) := decodeRune rest
      match normalizeRune t out i r with
      | .ok out1 => rangeLoop t fuel (i + w) (rest.drop w) out1
      | .error e => .error e

/-- `normalizeSegmentByType`: `out := make([]byte, len(seg))`, then the loop. -/
def normalizeSegmentByType (seg : Bytes) (t : Nat) : Except Panic Bytes :=
  rangeLoop t seg.length 0 seg (List.replicate seg.length 0)

/-- `normalizeSingleSegment`. -/
def normalizeSingleSegment (sha256 : Bytes → Digest) (s : Bytes) : Except Panic Bytes :=
  let hash := sha256 s
  let segType := (hash 0).val % 3
  normalizeSegmentByType s segType

/-- The body of the third loop of `normalizeSegmented`, on the state
`(out, start)` for the segment number `i`. -/
def segmentStep (s : Bytes) (segLens segTypes : List Nat) (st : Bytes × Nat) (i : Nat) :
    Except Panic (Bytes × Nat) :=
  match byteAt segLens i with
  | .error e => .error e
  | .ok n =>
    let e := min (st.2 + n) s.length
    if st.2 ≥ e then .ok st
    else
      match slice s st.2 e with
      | .error err => .error err
      | .ok segment =>
        match byteAt segTypes i with
        | .error err => .error err
        | .ok t =>
          match normalizeSegmentByType segment t with
          | .error err => .error err
          | .ok seg1 => .ok (st.1 ++ seg1, e)

/-- `normalizeSegmented`; the loops `for i := range 3` run over `0, 1, 2`. -/
def normalizeSegmented (sha256 : Bytes → Digest) (s : Bytes) : Except Panic Bytes :=
  if s.length = 0 then .ok s
  else
    let L := s.length
    if L < 3 then normalizeSingleSegment sha256 s
    else
      let base := L / 3
      let rem := L % 3
      let segLens := [0, 1, 2].map (fun i => if i < rem then base + 1 else base)
      let hash := sha256 s
      let segTypes := [(hash 0).val % 3, (hash 1).val % 3, (hash 2).val % 3]
      match [0, 1, 2].foldlM (segmentStep s segLens segTypes) ([], 0) with
      | .error e => .error e
      | .ok st => .ok st.1

/-! ## policy.go -/

/-- The struct `SitePolicy`. -/
structure SitePolicy where
  Site : Bytes
  MaxLen : Int
  RequireUpper : Bool
  RequireLower : Bool
  RequireDigit : Bool
  RequireSpecial : Bool
  SpecialChars : Bytes
  deriving DecidableEq, Repr

/-- The flags `hasUpper`, `hasLower`, `hasDigit`, `hasSpecial` of `applyPolicy`. -/
structure Composition where
  hasUpper : Bool
  hasLower : Bool
  hasDigit : Bool
  hasSpecial : Bool
  deriving DecidableEq, Repr

/-- The body of the classification loop of `applyPolicy`: the first case of the
`switch` that matches sets its flag. -/
def classifyByte (c : Composition) (ch : Nat) : Composition :=
  if 65 ≤ ch ∧ ch ≤ 90 then { c with hasUpper := true }
  else if 97 ≤ ch ∧ ch ≤ 122 then { c with hasLower := true }
  else if 48 ≤ ch ∧ ch ≤ 57 then { c with hasDigit := true }
  else { c with hasSpecial := true }

/-- The classification loop `for _, ch := range b` of `applyPolicy`. -/
def classify (b : Bytes) : Composition :=
  b.foldl classifyByte ⟨false, false, false, false⟩

/-- The closure `pickIndex` of `applyPolicy`, for a slice of length `len`. -/
def pickIndex (sha256 : Bytes → Digest) (site : Bytes) (len : Nat) (label : Bytes) : Nat :=
  if len = 0 then 0
  else
    let h := sha256 (site ++ bytesOf "|" ++ label)
    (h 0).val % len

/-- The common shape of the upper, lower and digit steps of `applyPolicy`:
`i := pickIndex(label); orig := b[i]; idx := max(IndexByte(base62Alphabet, orig), 0);
b[i] = byte(first + idx % modulus)`. -/
def rewriteAt (sha256 : Bytes → Digest) (site : Bytes) (label : Bytes) (first modulus : Int)
    (b : Bytes) : Except Panic Bytes :=
  let i := pickIndex sha256 site b.length label
  match byteAt b i with
  | .error e => .error e
  | .ok orig =>
    let idx := max (IndexByte base62Alphabet orig) 0
    setAt b i (toByte (first + idx % modulus))

/-- The special step of `applyPolicy`: `i := pickIndex("special")`,
`j := int(h[1]) % len(p.SpecialChars)`, `b[i] = p.SpecialChars[j]`. -/
def writeSpecial (sha256 : Bytes → Digest) (site : Bytes) (specialChars : Bytes)
    (b : Bytes) : Except Panic Bytes :=
  let i := pickIndex sha256 site b.length (bytesOf "special")
  let h := sha256 (site ++ bytesOf "|special_char")
  let j := (h 1).val % specialChars.length
  match byteAt specialChars j with
  | .error e => .error e
  | .ok c => setAt b i c

/-- `applyPolicy`. The flags are computed once, from the input; the
assignments `hasUpper = true` etc. inside the steps are not read again. -/
def applyPolicy (sha256 : Bytes → Digest) (s : Bytes) (p : SitePolicy) : Except Panic Bytes :=
  let b := s
  let c := classify b
  let stepUpper : Except Panic Bytes :=
    if p.RequireUpper ∧ ¬ c.hasUpper ∧ b.length > 0 then
      rewriteAt sha256 p.Site (bytesOf "upper") 65 26 b
    else .ok b
  match stepUpper with
  | .error e => .error e
  | .ok b1 =>
    let stepLower : Except Panic Bytes :=
      if p.RequireLower ∧ ¬ c.hasLower ∧ b1.length > 0 then
        rewriteAt sha256 p.Site (bytesOf "lower") 97 26 b1
      else .ok b1
    match stepLower with
    | .error e => .error e
    | .ok b2 =>
      let stepDigit : Except Panic Bytes :=
        if p.RequireDigit ∧ ¬ c.hasDigit ∧ b2.length > 0 then
          rewriteAt sha256 p.Site (bytesOf "digit") 48 10 b2
        else .ok b2
      match stepDigit with
      | .error e => .error e
      | .ok b3 =>
        if p.RequireSpecial ∧ ¬ c.hasSpecial ∧ b3.length > 0 ∧ p.SpecialChars.length > 0 then
          writeSpecial sha256 p.Site p.SpecialChars b3
        else .ok b3

/-! ## segment_normalizer.go: `Normalize`, and main.go: `pw` -/

/-- The length computed alike by `Normalize` and by `pw`: 12, or `MaxLen` of a
policy that is present and has `MaxLen > 0`. -/
def targetLength (policy : Option SitePolicy) : Int :=
  match policy with
  | some p => if p.MaxLen > 0 then p.MaxLen else 12
  | none => 12

/-- `SegNormalizer.Normalize`, for the normalizer `SegNormalizer{Policy: policy}`. -/
def Normalize (sha256 : Bytes → Digest) (policy : Option SitePolicy) (s : Bytes) :
    Except Panic Bytes :=
  if s.length = 0 then .ok s
  else
    let length := targetLength policy
    if (s.length : Int) < length then .error .encodedTooShort
    else
      match slice s 0 length.toNat with
      | .error e => .error e
      | .ok s1 =>
        match normalizeSegmented sha256 s1 with
        | .error e => .error e
        | .ok base =>
          match policy with
          | none => .ok base
          | some p => applyPolicy sha256 base p

/-- The digest-chain loop of `pw`:
`for len(encoded) < length { encoded += Encode(HMAC(secret, encoded)) }`,
bounded by `fuel` iterations. -/
def stretchLoop (hmac : Bytes → Bytes → Digest) (secret : Bytes) (length : Int) :
    Nat → Bytes → Except Panic Bytes
  | 0, encoded => if (encoded.length : Int) < length then .error .outOfFuel else .ok encoded
  | fuel + 1, encoded =>
    if (encoded.length : Int) < length then
      let digest2 := (hmac secret encoded).bytes
      match Encode digest2 with
      | .error e => .error e
      | .ok e2 => stretchLoop hmac secret length fuel (encoded ++ e2)
    else .ok encoded

/-- `pw`, with the secret read by `mustReadSecret` and the policy returned by
`loadSitePolicy` as arguments, and the loop bounded by `fuel` iterations. -/
def pw (hmac : Bytes → Bytes → Digest) (sha256 : Bytes → Digest) (secret : Bytes)
    (policy : Option SitePolicy) (site : Bytes) (fuel : Nat) : Except Panic Bytes :=
  let digest := (hmac secret site).bytes
  match Encode digest with
  | .error e => .error e
  | .ok encoded0 =>
    let length := targetLength policy
    match stretchLoop hmac secret length fuel encoded0 with
    | .error e => .error e
    | .ok encoded => Normalize sha256 policy encoded

/-! ## Reference notions used to state the properties -/

/-- The value of a digit string in a base, most significant digit first:
the sum of `ds[i] * base ^ (k - 1 - i)` over the positions `i` of `ds`. -/
def positional (base : Nat) (ds : List Nat) : Nat :=
  ((List.range ds.length).map (fun i => ds.getD i 0 * base ^ (ds.length - 1 - i))).sum

/-- The index of a character in the base62 alphabet (62 when it is absent). -/
def alphabetIndex (c : Nat) : Nat := base62Alphabet.indexOf c

/-- The alphabet character of the digit `d`. -/
def digitChar (d : Nat) : Nat := base62Alphabet.getD d 0

/-- A character of the base62 alphabet. -/
def isBase62 (c : Nat) : Prop := c ∈ base62Alphabet

instance (c : Nat) : Decidable (isBase62 c) := by unfold isBase62; infer_instance


/-- The byte that the loop body of `normalizeSegmentByType` (`normalizeRune`)
writes for the character `ch` and a segment type `t` among 0, 1, 2. -/
def remapByte (t ch : Nat) : Nat :=
  let idx := max (IndexByte base62Alphabet ch) 0
  if t = SegmentUpper then toByte (65 + idx % 26)
  else if t = SegmentLower then toByte (97 + idx % 26)
  else toByte (48 + idx % 10)

/-- The byte that the upper, lower and digit steps of `applyPolicy`
(`rewriteAt`) write over the byte `orig`. -/
def rewriteByte (first modulus : Int) (orig : Nat) : Nat :=
  toByte (first + max (IndexByte base62Alphabet orig) 0 % modulus)

/-- An upper, lower or digit step of `applyPolicy` without its failure cases:
when it fires it overwrites the picked position of the current string `b`. -/
def rewriteStep (sha256 : Bytes → Digest) (site label : Bytes) (first modulus : Int)
    (fire : Prop) [Decidable fire] (b : Bytes) : Bytes :=
  if fire ∧ b.length > 0 then
    b.set (pickIndex sha256 site b.length label)
      (rewriteByte first modulus (b.getD (pickIndex sha256 site b.length label) 0))
  else b

/-- The special step of `applyPolicy` without its failure cases. -/
def specialStep (sha256 : Bytes → Digest) (site specialChars : Bytes)
    (fire : Prop) [Decidable fire] (b : Bytes) : Bytes :=
  if fire ∧ b.length > 0 ∧ specialChars.length > 0 then
    b.set (pickIndex sha256 site b.length (bytesOf "special"))
      (specialChars.getD
        ((sha256 (site ++ bytesOf "|special_char") 1).val % specialChars.length) 0)
  else b

/-- The string that `applyPolicy` returns, written without the failure cases:
the four steps in the order upper, lower, digit, special, each on the string
the step before it left, the flags taken from the input. -/
def enforced (sha256 : Bytes → Digest) (s : Bytes) (p : SitePolicy) : Bytes :=
  let c := classify s
  let b1 := rewriteStep sha256 p.Site (bytesOf "upper") 65 26
    (p.RequireUpper ∧ ¬ c.hasUpper) s
  let b2 := rewriteStep sha256 p.Site (bytesOf "lower") 97 26
    (p.RequireLower ∧ ¬ c.hasLower) b1
  let b3 := rewriteStep sha256 p.Site (bytesOf "digit") 48 10
    (p.RequireDigit ∧ ¬ c.hasDigit) b2
  specialStep sha256 p.Site p.SpecialChars (p.RequireSpecial ∧ ¬ c.hasSpecial) b3

/-- The four positions that the steps of `applyPolicy` pick in a string of
length `n`: `SHA-256(site|label)[0] mod n` for the labels upper, lower, digit,
special. -/
def pickedIndices (sha256 : Bytes → Digest) (site : Bytes) (n : Nat) : List Nat :=
  [pickIndex sha256 site n (bytesOf "upper"), pickIndex sha256 site n (bytesOf "lower"),
   pickIndex sha256 site n (bytesOf "digit"), pickIndex sha256 site n (bytesOf "special")]

/-- An uppercase letter `A`..`Z`. -/
def isUpper (c : Nat) : Prop := 65 ≤ c ∧ c ≤ 90

/-- A lowercase letter `a`..`z`. -/
def isLower (c : Nat) : Prop := 97 ≤ c ∧ c ≤ 122

/-- A digit `0`..`9`. -/
def isDigit (c : Nat) : Prop := 48 ≤ c ∧ c ≤ 57

/-- A character of `[A-Za-z0-9]`. -/
def isAlnum (c : Nat) : Prop := isUpper c ∨ isLower c ∨ isDigit c

instance (c : Nat) : Decidable (isUpper c) := by unfold isUpper; infer_instance

instance (c : Nat) : Decidable (isLower c) := by unfold isLower; infer_instance

instance (c : Nat) : Decidable (isDigit c) := by unfold isDigit; infer_instance

instance (c : Nat) : Decidable (isAlnum c) := by unfold isAlnum; infer_instance

/-! ## The reference definition of segment normalization

Written from the specification (section 4.3), to be compared with
`normalizeSegmented`. -/

/-- The length of segment `i` of a string of length `L`: base length `L div 3`,
and the first `L mod 3` segments get one extra character. -/
def segmentLengthSpec (L i : Nat) : Nat := L / 3 + (if i < L % 3 then 1 else 0)

/-- The replacement of a character in a segment of type `k`
(0 upper, 1 lower, 2 digit): `'A' + idx mod 26`, `'a' + idx mod 26` or
`'0' + idx mod 10`, where `idx` is the alphabet index of the character. -/
def remapSpec (k c : Nat) : Nat :=
  if k = 0 then 65 + alphabetIndex c % 26
  else if k = 1 then 97 + alphabetIndex c % 26
  else 48 + alphabetIndex c % 10

/-- The reference definition: three contiguous segments of the lengths
`segmentLengthSpec L i`, segment `i` typed by `SHA-256(s)[i] mod 3`, when
`L ≥ 3`; one segment typed by `SHA-256(s)[0] mod 3` when `1 ≤ L < 3`. -/
def normalizeSegmentedSpec (sha256 : Bytes → Digest) (s : Bytes) : Bytes :=
  let L := s.length
  let h := sha256 s
  if 3 ≤ L then
    let n0 := segmentLengthSpec L 0
    let n1 := segmentLengthSpec L 1
    let n2 := segmentLengthSpec L 2
    let seg0 := s.take n0
    let seg1 := (s.drop n0).take n1
    let seg2 := (s.drop (n0 + n1)).take n2
    seg0.map (remapSpec ((h 0).val % 3)) ++ seg1.map (remapSpec ((h 1).val % 3))
      ++ seg2.map (remapSpec ((h 2).val % 3))
  else if 1 ≤ L then s.map (remapSpec ((h 0).val % 3))
  else s

/-! ## The steps of `applyPolicy` as data -/

/-- One step of `applyPolicy`: whether it fires, the position it picks, and the
byte it writes as a function of the byte it finds there. -/
structure Step where
  fires : Bool
  index : Nat
  write : Nat → Nat

/-- Runs one step on the current string. -/
def runStep (b : Bytes) (st : Step) : Bytes :=
  if st.fires then b.set st.index (st.write (b.getD st.index 0)) else b

/-- Runs the steps in order, each on the string the step before it left. -/
def runSteps (steps : List Step) (b : Bytes) : Bytes := steps.foldl runStep b

/-- The four steps of `applyPolicy` on the input `s`, in the order of the
source: upper, lower, digit, special. The upper, lower and digit steps write
`byte(first + idx % modulus)` for the alphabet index `idx` of the byte they
find; the special step writes `SpecialChars[h[1] % len(SpecialChars)]`. -/
def policySteps (sha256 : Bytes → Digest) (s : Bytes) (p : SitePolicy) : List Step :=
  let c := classify s
  let n := s.length
  [⟨p.RequireUpper ∧ ¬ c.hasUpper ∧ n > 0,
      pickIndex sha256 p.Site n (bytesOf "upper"), rewriteByte 65 26⟩,
   ⟨p.RequireLower ∧ ¬ c.hasLower ∧ n > 0,
      pickIndex sha256 p.Site n (bytesOf "lower"), rewriteByte 97 26⟩,
   ⟨p.RequireDigit ∧ ¬ c.hasDigit ∧ n > 0,
      pickIndex sha256 p.Site n (bytesOf "digit"), rewriteByte 48 10⟩,
   ⟨p.RequireSpecial ∧ ¬ c.hasSpecial ∧ n > 0 ∧ p.SpecialChars.length > 0,
      pickIndex sha256 p.Site n (bytesOf "special"),
      fun _ => p.SpecialChars.getD
        ((sha256 (p.Site ++ bytesOf "|special_char") 1).val % p.SpecialChars.length) 0⟩]

/-- The positions picked by those steps of a list that fire. -/
def firedIndices (steps : List Step) : List Nat :=
  (steps.filter (fun st => st.fires)).map (fun st => st.index)

/-- The character class of a segment type: `A-Z` for `SegmentUpper`, `a-z` for
`SegmentLower`, `0-9` for `SegmentDigit`. -/
def segmentClass (t c : Nat) : Prop :=
  if t = SegmentUpper then isUpper c else if t = SegmentLower then isLower c else isDigit c

/-- The first character of the class of a segment type: `A`, `a` or `0`. -/
def segmentFirst (t : Nat) : Nat :=
  if t = SegmentUpper then 65 else if t = SegmentLower then 97 else 48

/-! ## policy.go: `parseBool` and `loadSitePolicy` -/

/-- The library functions that `parseBool` and `loadSitePolicy` call, as
parameters: `strings.TrimSpace`, `strings.ToLower` and `strconv.Atoi` (`none`
when it returns an error). -/
structure StringLib where
  TrimSpace : Bytes → Bytes
  ToLower : Bytes → Bytes
  Atoi : Bytes → Option Int

/-- `parseBool`. -/
def parseBool (lib : StringLib) (s : Bytes) : Bool :=
  let v := lib.ToLower (lib.TrimSpace s)
  decide (v = bytesOf "1" ∨ v = bytesOf "true" ∨ v = bytesOf "yes" ∨ v = bytesOf "y"
    ∨ v = bytesOf "on")

/-- `strings.SplitN(line, "=", 2)` when it yields two parts: the text before
the first `=` and the text after it. -/
def splitKeyValue (line : Bytes) : Option (Bytes × Bytes) :=
  match line.span (fun c => c != 61) with
  | (k, _ :: v) => some (k, v)
  | (_, []) => none

/-- The body of the scanning loop of `loadSitePolicy` for the line `text`
(`scanner.Text()`). -/
def applyLine (lib : StringLib) (p : SitePolicy) (text : Bytes) : SitePolicy :=
  let line := lib.TrimSpace text
  if line = [] ∨ line.head? = some 35 then p
  else
    match splitKeyValue line with
    | none => p
    | some (k, v) =>
      let key := lib.TrimSpace k
      let val := lib.TrimSpace v
      if key = bytesOf "length" ∨ key = bytesOf "len" ∨ key = bytesOf "n" then
        match lib.Atoi val with
        | some n => if n > 0 then { p with MaxLen := n } else p
        | none => p
      else if key = bytesOf "require_upper" ∨ key = bytesOf "upper" then
        { p with RequireUpper := parseBool lib val }
      else if key = bytesOf "require_lower" ∨ key = bytesOf "lower" then
        { p with RequireLower := parseBool lib val }
      else if key = bytesOf "require_digit" ∨ key = bytesOf "digit" then
        { p with RequireDigit := parseBool lib val }
      else if key = bytesOf "require_special" ∨ key = bytesOf "special" then
        { p with RequireSpecial := parseBool lib val }
      else if key = bytesOf "special_chars" then { p with SpecialChars := val }
      else p

/-- The policy that the scanning loop of `loadSitePolicy` leaves, from
`&SitePolicy{Site: site}` and the lines that the scanner yields. -/
def scanPolicy (lib : StringLib) (lines : List Bytes) (site : Bytes) : SitePolicy :=
  lines.foldl (applyLine lib) ⟨site, 0, false, false, false, false, []⟩

/-- `loadSitePolicy`, with the outcome of `os.ReadFile` as an argument: `none`
when the file cannot be read, else the lines that the scanner yields. After
the loop an empty `SpecialChars` is replaced by the default set. -/
def loadSitePolicy (lib : StringLib) (file : Option (List Bytes)) (site : Bytes) :
    Option SitePolicy :=
  match file with
  | none => none
  | some lines =>
    let p := scanPolicy lib lines site
    some (if p.SpecialChars = [] then { p with SpecialChars := bytesOf "!@#$%^&*" } else p)

/-- A toy string library for running the definitions on concrete inputs:
`TrimSpace` drops leading and trailing blanks, `ToLower` maps `A`..`Z`, and
`Atoi` reads unsigned decimal digits. -/
def toyLib : StringLib where
  TrimSpace := fun s => ((s.dropWhile (fun c => c == 32)).reverse.dropWhile
    (fun c => c == 32)).reverse
  ToLower := fun s => s.map (fun c => if 65 ≤ c ∧ c ≤ 90 then c + 32 else c)
  Atoi := fun s =>
    if s ≠ [] ∧ s.all (fun c => decide (48 ≤ c ∧ c ≤ 57)) then
      some (s.foldl (fun n c => n * 10 + ((c : Int) - 48)) 0)
    else none

/-- A toy digest function for running the definitions on concrete inputs. -/
def toyDigest (m : Bytes) : Digest :=
  fun i => ⟨(m.foldl (fun a x => (a * 31 + x) % 256) 7 + 37 * i.val) % 256, Nat.mod_lt _ (by decide)⟩

/-- A toy keyed digest function for running the definitions on concrete inputs. -/
def toyHmac (key msg : Bytes) : Digest := toyDigest (key ++ 0 :: msg)

/-! ## The encoder -/

theorem base62Alphabet_eq : base62Alphabet =
    [97, 98, 99, 100, 101, 102, 103, 104, 105, 106, 107, 108, 109, 110, 111, 112, 113, 114, 115,
     116, 117, 118, 119, 120, 121, 122, 65, 66, 67, 68, 69, 70, 71, 72, 73, 74, 75, 76, 77, 78,
     79, 80, 81, 82, 83, 84, 85, 86, 87, 88, 89, 90, 48, 49, 50, 51, 52, 53, 54, 55, 56, 57] := by
  decide

theorem base62Alphabet_length : base62Alphabet.length = 62 := by decide

theorem base62Alphabet_nodup : base62Alphabet.Nodup := by decide

theorem byteAt_of_lt (s : Bytes) (i : Nat) (h : i < s.length) : byteAt s i = .ok (s.get ⟨i, h⟩) := by
  simp [byteAt, List.getElem?_eq_getElem h]

theorem byteAt_append_middle (pre post : Bytes) (x : Nat) :
    byteAt (pre ++ x :: post) pre.length = .ok x := by
  have : (pre ++ x :: post)[pre.length]? = some x := by
    rw [List.getElem?_append_right (le_refl _)]; simp
  simp [byteAt, this]

theorem setAt_append_middle (pre post : Bytes) (x v : Nat) :
    setAt (pre ++ x :: post) pre.length v = .ok (pre ++ v :: post) := by
  simp [setAt]

/-- The reversal loop reverses the middle part `mid` of `pre ++ mid ++ post`. -/
theorem swapLoop_middle (fuel : Nat) : ∀ (pre mid post : Bytes), mid.length ≤ fuel →
    swapLoop fuel pre.length (pre.length + mid.length - 1) (pre ++ mid ++ post)
      = .ok (pre ++ mid.reverse ++ post) := by
  induction fuel with
  | zero =>
    intro pre mid post h
    have : mid = [] := List.length_eq_zero.mp (Nat.le_zero.mp h)
    subst this
    simp [swapLoop]
  | succ fuel ih =>
    intro pre mid post h
    match mid, h with
    | [], _ => simp [swapLoop]
    | [x], _ => simp [swapLoop]
    | x :: y :: rest, h =>
      rcases List.eq_nil_or_concat (y :: rest) with hnil | ⟨mid1, z, hz⟩
      · simp at hnil
      · rw [List.concat_eq_append] at hz
        rw [hz]
        have hlen : (y :: rest).length = mid1.length + 1 := by rw [hz]; simp
        have hj : pre.length + (x :: (mid1 ++ [z])).length - 1 = (pre ++ x :: mid1).length := by
          simp only [List.length_cons, List.length_append, List.length_nil]; omega
        have hlt : pre.length < pre.length + (x :: (mid1 ++ [z])).length - 1 := by
          simp only [List.length_cons, List.length_append, List.length_nil]; omega
        rw [swapLoop, if_pos hlt, hj]
        have e1 : pre ++ x :: (mid1 ++ [z]) ++ post = (pre ++ x :: mid1) ++ z :: post := by simp
        have e2 : pre ++ x :: (mid1 ++ [z]) ++ post = pre ++ x :: (mid1 ++ z :: post) := by simp
        rw [e1, byteAt_append_middle, ← e1, e2, byteAt_append_middle]
        simp only []
        rw [setAt_append_middle]
        simp only []
        have e3 : pre ++ z :: (mid1 ++ z :: post) = (pre ++ z :: mid1) ++ z :: post := by simp
        have hl' : (pre ++ x :: mid1).length = (pre ++ z :: mid1).length := by simp
        rw [e3, hl', setAt_append_middle]
        simp only []
        have e4 : pre ++ z :: mid1 ++ x :: post = (pre ++ [z]) ++ mid1 ++ (x :: post) := by simp
        have h5 : (pre ++ z :: mid1).length - 1 = (pre ++ [z]).length + mid1.length - 1 := by
          simp
        have h6 : pre.length + 1 = (pre ++ [z]).length := by simp
        rw [e4, h5, h6, ih (pre ++ [z]) mid1 (x :: post) (by simp at h hlen; omega)]
        simp

theorem swapLoop_reverse (out : Bytes) :
    swapLoop out.length 0 (out.length - 1) out = .ok out.reverse := by
  have := swapLoop_middle out.length [] out [] (le_refl _)
  simpa using this


theorem byteAt_alphabet (r : Nat) (h : r < 62) : byteAt base62Alphabet r = .ok (digitChar r) := by
  have h2 : r < base62Alphabet.length := by rw [base62Alphabet_length]; exact h
  simp [byteAt, digitChar, List.getD, List.getElem?_eq_getElem h2]

theorem encodeLoop_digits (fuel : Nat) : ∀ (n : Nat) (out : Bytes), n ≤ fuel →
    encodeLoop fuel n out = .ok (out ++ (Nat.digits 62 n).map digitChar) := by
  induction fuel with
  | zero =>
    intro n out h
    have : n = 0 := Nat.le_zero.mp h
    subst this
    simp [encodeLoop]
  | succ fuel ih =>
    intro n out h
    by_cases hn : n > 0
    · have hdiv : n / 62 ≤ fuel := by
        have : n / 62 < n := Nat.div_lt_self hn (by decide)
        omega
      rw [encodeLoop, if_pos hn]
      simp only []
      rw [byteAt_alphabet _ (Nat.mod_lt _ (by decide))]
      simp only []
      rw [ih _ _ hdiv, Nat.digits_def' (by decide) hn]
      simp
    · have : n = 0 := by omega
      subst this
      simp [encodeLoop]

theorem Encode_of_ne_zero (b : Bytes) (h : SetBytes b ≠ 0) :
    Encode b = .ok (((Nat.digits 62 (SetBytes b)).map digitChar).reverse) := by
  have hb : b.length ≠ 0 := by
    intro h0
    have : b = [] := List.length_eq_zero.mp h0
    subst this
    exact h rfl
  rw [Encode, if_neg hb]
  simp only []
  rw [if_neg h, encodeLoop_digits _ _ _ (le_refl _)]
  simp only [List.nil_append]
  exact swapLoop_reverse _

theorem Encode_of_zero (b : Bytes) (hb : b ≠ []) (h : SetBytes b = 0) :
    Encode b = .ok [97] := by
  have hb : b.length ≠ 0 := by simpa using hb
  rw [Encode, if_neg hb]
  simp only []
  rw [if_pos h]
  rfl

theorem Encode_nil : Encode [] = .ok [] := rfl

theorem positional_concat (base : Nat) (ds : List Nat) (d : Nat) :
    positional base (ds ++ [d]) = positional base ds * base + d := by
  unfold positional
  simp only [List.length_append, List.length_singleton, List.range_succ, List.map_append,
    List.sum_append, List.map_cons, List.map_nil, List.sum_cons, List.sum_nil]
  have h1 : (List.range ds.length).map
      (fun i => (ds ++ [d]).getD i 0 * base ^ (ds.length + 1 - 1 - i))
      = (List.range ds.length).map (fun i => ds.getD i 0 * base ^ (ds.length - 1 - i) * base) := by
    apply List.map_congr_left
    intro i hi
    have hi : i < ds.length := List.mem_range.mp hi
    have e : ds.length + 1 - 1 - i = (ds.length - 1 - i) + 1 := by omega
    rw [e, pow_succ, List.getD_append _ _ _ _ hi, mul_assoc]
  rw [h1, List.sum_map_mul_right]
  simp [List.getD_append_right]

theorem positional_eq_foldl (base : Nat) (ds : List Nat) :
    positional base ds = ds.foldl (fun n x => n * base + x) 0 := by
  induction ds using List.reverseRecOn with
  | nil => rfl
  | append_singleton ds d ih => rw [positional_concat, ih]; simp

theorem SetBytes_eq_positional (b : Bytes) : SetBytes b = positional 256 b :=
  (positional_eq_foldl 256 b).symm

theorem positional_reverse_digits (base : Nat) (L : List Nat) :
    positional base L.reverse = Nat.ofDigits base L := by
  rw [positional_eq_foldl, List.foldl_reverse, Nat.ofDigits_eq_foldr]
  congr 1
  funext x y
  simp [mul_comm, add_comm]

theorem alphabetIndex_digitChar : ∀ d, d < 62 → alphabetIndex (digitChar d) = d := by
  decide

theorem digitChar_mem : ∀ d, d < 62 → digitChar d ∈ base62Alphabet := by
  decide

theorem digitChar_ne_a : ∀ d, d < 62 → d ≠ 0 → digitChar d ≠ 97 := by
  decide


theorem SetBytes_of_all_zero (b : Bytes) (h : ∀ x ∈ b, x = 0) : SetBytes b = 0 := by
  unfold SetBytes
  induction b with
  | nil => rfl
  | cons x b ih =>
    have hx : x = 0 := h x (List.mem_cons_self _ _)
    subst hx
    simpa using ih (fun y hy => h y (List.mem_cons_of_mem _ hy))

theorem digits_map_ne_nil (n : Nat) (h : n ≠ 0) : ((Nat.digits 62 n).map digitChar).reverse ≠ [] := by
  simp [Nat.digits_eq_nil_iff_eq_zero, h]

/-- `Encode` returns a string for every input, non-empty when the input is. -/
theorem Encode_total (b : Bytes) : ∃ s, Encode b = .ok s ∧ (s = [] ↔ b = []) := by
  by_cases hb : b = []
  · subst hb
    exact ⟨[], rfl, by simp⟩
  · by_cases h : SetBytes b = 0
    · exact ⟨[97], Encode_of_zero b hb h, by simp [hb]⟩
    · exact ⟨_, Encode_of_ne_zero b h, by simp [hb, Nat.digits_eq_nil_iff_eq_zero, h]⟩

/-- Every character `Encode` produces is a character of the alphabet. -/
theorem Encode_chars (b s : Bytes) (h : Encode b = .ok s) : ∀ c ∈ s, isBase62 c := by
  by_cases hb : b = []
  · subst hb
    rw [Encode_nil] at h
    cases h
    simp
  · by_cases h0 : SetBytes b = 0
    · rw [Encode_of_zero b hb h0] at h
      cases h
      intro c hc
      simp only [List.mem_singleton] at hc
      subst hc
      show 97 ∈ base62Alphabet
      decide
    · rw [Encode_of_ne_zero b h0] at h
      cases h
      intro c hc
      simp only [List.mem_reverse, List.mem_map] at hc
      obtain ⟨d, hd, rfl⟩ := hc
      exact digitChar_mem d (Nat.digits_lt_base (by decide) hd)

/-- C1: for every non-empty byte sequence `b`, `Encode b` read as a base-62
numeral, most significant digit first, with the alphabet index of each
character as its digit, has the value of `b` read as a big-endian base-256
numeral. -/
theorem Encode_numeral_value (b : Bytes) (hb : b ≠ []) :
    ∃ s, Encode b = .ok s ∧ positional 62 (s.map alphabetIndex) = positional 256 b := by
  by_cases h : SetBytes b = 0
  · refine ⟨[97], Encode_of_zero b hb h, ?_⟩
    rw [← SetBytes_eq_positional, h]
    decide
  · refine ⟨_, Encode_of_ne_zero b h, ?_⟩
    rw [← SetBytes_eq_positional]
    have hmap : (Nat.digits 62 (SetBytes b)).map (alphabetIndex ∘ digitChar)
        = Nat.digits 62 (SetBytes b) := by
      conv_rhs => rw [← List.map_id (Nat.digits 62 (SetBytes b))]
      apply List.map_congr_left
      intro d hd
      exact alphabetIndex_digitChar d (Nat.digits_lt_base (by decide) hd)
    have hrev : (((Nat.digits 62 (SetBytes b)).map digitChar).reverse).map alphabetIndex
        = (Nat.digits 62 (SetBytes b)).reverse := by
      rw [List.map_reverse, List.map_map, hmap]
    rw [hrev, positional_reverse_digits, Nat.ofDigits_digits]

/-- Witness of C1 at the two bytes `0xFF 0xFF` (65535, encoded as "rdb"). -/
theorem Encode_numeral_value_witness :
    ([255, 255] : Bytes) ≠ [] ∧
      ∃ s, Encode [255, 255] = .ok s ∧
        positional 62 (s.map alphabetIndex) = positional 256 [255, 255] :=
  ⟨by decide, Encode_numeral_value [255, 255] (by decide)⟩

/-- C2: for every byte sequence whose integer value is not zero, `Encode`
returns a non-empty string of alphabet characters whose first character is
not the zero symbol `a`. -/
theorem Encode_no_leading_zero (b : Bytes) (h : positional 256 b ≠ 0) :
    ∃ s, Encode b = .ok s ∧ s ≠ [] ∧ (∀ c ∈ s, isBase62 c) ∧
      s.head? ≠ base62Alphabet.head? := by
  rw [← SetBytes_eq_positional] at h
  refine ⟨_, Encode_of_ne_zero b h, digits_map_ne_nil _ h,
    Encode_chars b _ (Encode_of_ne_zero b h), ?_⟩
  have hne : Nat.digits 62 (SetBytes b) ≠ [] := by
    simp [Nat.digits_eq_nil_iff_eq_zero, h]
  have hlast := Nat.getLast_digit_ne_zero 62 h
  rw [List.head?_reverse, List.getLast?_map, List.getLast?_eq_getLast _ hne]
  have hlt : (Nat.digits 62 (SetBytes b)).getLast hne < 62 :=
    Nat.digits_lt_base (by decide) (List.getLast_mem hne)
  have := digitChar_ne_a _ hlt hlast
  intro heq
  apply this
  have h97 : base62Alphabet.head? = some 97 := by decide
  rw [h97] at heq
  simpa using heq

/-- Witness of C2 at the bytes `0x00 0x01`. -/
theorem Encode_no_leading_zero_witness :
    positional 256 [0, 1] ≠ 0 ∧
      ∃ s, Encode [0, 1] = .ok s ∧ s ≠ [] ∧ (∀ c ∈ s, isBase62 c) ∧
        s.head? ≠ base62Alphabet.head? :=
  ⟨by decide, Encode_no_leading_zero [0, 1] (by decide)⟩

/-- C3: `Encode b` is the empty string exactly when `b` is empty; a non-empty
`b` of zero bytes only is encoded as the one-character string "a"; and `Encode`
returns a string for every input. -/
theorem Encode_empty_zero_total (b : Bytes) :
    (Encode b = .ok [] ↔ b = []) ∧
      (b ≠ [] ∧ (∀ x ∈ b, x = 0) → Encode b = .ok (bytesOf "a")) ∧
      ∃ s, Encode b = .ok s := by
  obtain ⟨s, hs, hiff⟩ := Encode_total b
  refine ⟨?_, ?_, ⟨s, hs⟩⟩
  · rw [hs]
    constructor
    · intro h
      cases h
      exact hiff.mp rfl
    · intro h
      rw [hiff.mpr h]
  · rintro ⟨hb, hz⟩
    exact Encode_of_zero b hb (SetBytes_of_all_zero b hz)

/-! ## The digest chain -/

theorem Digest.bytes_ne_nil (d : Digest) : d.bytes ≠ [] := by
  intro h
  have : d.bytes.length = 32 := by simp [Digest.bytes]
  rw [h] at this
  simp at this

/-- The encoding of a digest is a non-empty string of alphabet characters. -/
theorem Encode_digest (d : Digest) :
    ∃ e, Encode d.bytes = .ok e ∧ 1 ≤ e.length ∧ ∀ c ∈ e, isBase62 c := by
  obtain ⟨e, he, hiff⟩ := Encode_total d.bytes
  refine ⟨e, he, ?_, Encode_chars _ _ he⟩
  have hne : e ≠ [] := fun h => Digest.bytes_ne_nil d (hiff.mp h)
  exact List.length_pos.mpr hne

/-- With enough fuel the digest-chain loop returns an extension of its start
value that is at least `length` long. -/
theorem stretchLoop_ok (hmac : Bytes → Bytes → Digest) (secret : Bytes) (length : Int)
    (fuel : Nat) : ∀ encoded : Bytes, (length - encoded.length).toNat ≤ fuel →
    ∃ r, stretchLoop hmac secret length fuel encoded = .ok r ∧ length ≤ (r.length : Int) ∧
      encoded <+: r ∧ ((∀ c ∈ encoded, isBase62 c) → ∀ c ∈ r, isBase62 c) := by
  induction fuel with
  | zero =>
    intro encoded h
    have hlen : ¬ ((encoded.length : Int) < length) := by omega
    exact ⟨encoded, by simp [stretchLoop, hlen], by omega, List.prefix_refl _, fun h => h⟩
  | succ fuel ih =>
    intro encoded h
    by_cases hlen : (encoded.length : Int) < length
    · obtain ⟨e, he, hpos, hchars⟩ := Encode_digest (hmac secret encoded)
      have hfuel : (length - ((encoded ++ e).length : Nat)).toNat ≤ fuel := by
        rw [List.length_append]
        push_cast
        omega
      obtain ⟨r, hr, hge, hpre, hall⟩ := ih (encoded ++ e) hfuel
      refine ⟨r, ?_, hge, (List.prefix_append _ _).trans hpre, ?_⟩
      · rw [stretchLoop, if_pos hlen]
        simp only []
        rw [he]
        exact hr
      · intro henc
        apply hall
        intro c hc
        rcases List.mem_append.mp hc with hc | hc
        · exact henc c hc
        · exact hchars c hc
    · exact ⟨encoded, by simp [stretchLoop, hlen], by omega, List.prefix_refl _, fun h => h⟩

/-- C4: for every secret, site and target length (12, or `MaxLen` of a policy
with `MaxLen > 0`), and every function into 32-byte digests in the place of
HMAC-SHA256, each iteration of the digest-chain loop of `pw` appends at least
one character, and the loop, given as many iterations as the target length,
exits with a string at least as long as the target length. -/
theorem stretchLoop_terminates (hmac : Bytes → Bytes → Digest) (secret site : Bytes)
    (policy : Option SitePolicy) :
    (∀ encoded : Bytes, ∃ e, Encode (hmac secret encoded).bytes = .ok e ∧
        (encoded ++ e).length ≥ encoded.length + 1) ∧
      ∃ encoded0, Encode (hmac secret site).bytes = .ok encoded0 ∧
        ∀ fuel, (targetLength policy).toNat ≤ fuel →
          ∃ encoded, stretchLoop hmac secret (targetLength policy) fuel encoded0 = .ok encoded ∧
            targetLength policy ≤ (encoded.length : Int) := by
  constructor
  · intro encoded
    obtain ⟨e, he, hpos, _⟩ := Encode_digest (hmac secret encoded)
    exact ⟨e, he, by rw [List.length_append]; omega⟩
  · obtain ⟨e0, he0, _, _⟩ := Encode_digest (hmac secret site)
    refine ⟨e0, he0, ?_⟩
    intro fuel hfuel
    obtain ⟨r, hr, hge, _, _⟩ := stretchLoop_ok hmac secret (targetLength policy) fuel e0
      (by omega)
    exact ⟨r, hr, hge⟩

/-! ## The segment normalizer -/

theorem decodeRune_ascii (c : Nat) (rest : Bytes) (h : c < 128) :
    decodeRune (c :: rest) = (c, 1) := by
  simp [decodeRune, h]

theorem decodeMulti_width (s0 sz lo hi : Nat) (rest : Bytes) :
    1 ≤ (decodeMulti s0 sz lo hi rest).2 ∧ (decodeMulti s0 sz lo hi rest).2 ≤ rest.length + 1 := by
  unfold decodeMulti
  split
  · simp
  · split
    · simp
    · split
      · simp
      · split
        · simp
        · split
          · simp
          · split
            · simp
            · split
              · simp
              · split
                · simp
                · split <;> simp

theorem decodeRune_width (rest : Bytes) (h : rest ≠ []) :
    1 ≤ (decodeRune rest).2 ∧ (decodeRune rest).2 ≤ rest.length := by
  match rest, h with
  | s0 :: rest, _ =>
    unfold decodeRune
    simp only [List.length_cons]
    by_cases h1 : s0 < 0x80
    · simp [h1]
    · by_cases h2 : s0 < 0xC2 ∨ 0xF4 < s0
      · rw [if_neg h1, if_pos h2]; simp
      · rw [if_neg h1, if_neg h2]
        exact decodeMulti_width _ _ _ _ _


theorem normalizeRune_ok (t : Nat) (out : Bytes) (i r : Nat) (h : i < out.length) :
    ∃ out1, normalizeRune t out i r = .ok out1 ∧ out1.length = out.length := by
  unfold normalizeRune setAt
  simp only [if_pos h]
  split_ifs <;> exact ⟨_, rfl, by simp⟩

theorem normalizeRune_eq (t : Nat) (out : Bytes) (i r : Nat) (ht : t < 3) (h : i < out.length) :
    normalizeRune t out i r = .ok (out.set i (remapByte t (r % 256))) := by
  unfold normalizeRune setAt remapByte SegmentUpper SegmentLower SegmentDigit
  simp only [if_pos h]
  split_ifs <;> first | rfl | omega

/-- The `range` loop returns, whatever the bytes of the segment are, and keeps
the length of `out`. -/
theorem rangeLoop_total (t : Nat) (fuel : Nat) : ∀ (i : Nat) (rest out : Bytes),
    rest.length ≤ fuel → i + rest.length ≤ out.length →
    ∃ r, rangeLoop t fuel i rest out = .ok r ∧ r.length = out.length := by
  induction fuel with
  | zero =>
    intro i rest out h _
    have : rest.length = 0 := Nat.le_zero.mp h
    exact ⟨out, by simp [rangeLoop, this], rfl⟩
  | succ fuel ih =>
    intro i rest out h hi
    by_cases h0 : rest.length = 0
    · exact ⟨out, by simp [rangeLoop, h0], rfl⟩
    · have hne : rest ≠ [] := fun hn => h0 (by simp [hn])
      obtain ⟨hw1, hw2⟩ := decodeRune_width rest hne
      rcases hd : decodeRune rest with ⟨r, w⟩
      rw [hd] at hw1 hw2
      simp only at hw1 hw2
      obtain ⟨out1, ho, hl⟩ := normalizeRune_ok t out i r (by omega)
      obtain ⟨res, hres, hlen⟩ := ih (i + w) (rest.drop w) out1
        (by rw [List.length_drop]; omega) (by rw [List.length_drop, hl]; omega)
      refine ⟨res, ?_, by rw [hlen, hl]⟩
      rw [rangeLoop, if_neg h0, hd]
      simp only []
      rw [ho]
      exact hres

/-- On bytes below 128 the `range` loop visits every byte and writes its
replacement. -/
theorem rangeLoop_ascii (t : Nat) (ht : t < 3) (fuel : Nat) : ∀ (pre rest : Bytes),
    rest.length ≤ fuel → (∀ c ∈ rest, c < 128) →
    rangeLoop t fuel pre.length rest (pre ++ List.replicate rest.length 0)
      = .ok (pre ++ rest.map (remapByte t)) := by
  induction fuel with
  | zero =>
    intro pre rest h _
    have : rest = [] := List.length_eq_zero.mp (Nat.le_zero.mp h)
    subst this
    simp [rangeLoop]
  | succ fuel ih =>
    intro pre rest h hasc
    match rest, h, hasc with
    | [], _, _ => simp [rangeLoop]
    | c :: rest, h, hasc =>
      have hc : c < 128 := hasc c (List.mem_cons_self _ _)
      have hlt : pre.length < (pre ++ List.replicate (c :: rest).length 0).length := by
        simp
      rw [rangeLoop, if_neg (by simp), decodeRune_ascii c rest hc]
      simp only []
      rw [normalizeRune_eq t _ _ _ ht hlt]
      simp only []
      have hmod : c % 256 = c := Nat.mod_eq_of_lt (by omega)
      have hset : (pre ++ List.replicate (c :: rest).length 0).set pre.length (remapByte t (c % 256))
          = (pre ++ [remapByte t c]) ++ List.replicate rest.length 0 := by
        rw [hmod]
        simp [List.replicate_succ, List.set_append_right]
      have hpl : pre.length + 1 = (pre ++ [remapByte t c]).length := by simp
      rw [hset, hpl, List.drop_one, List.tail_cons,
        ih _ rest (by simpa using h) (fun x hx => hasc x (List.mem_cons_of_mem _ hx))]
      simp

theorem normalizeSegmentByType_total (seg : Bytes) (t : Nat) :
    ∃ r, normalizeSegmentByType seg t = .ok r ∧ r.length = seg.length := by
  obtain ⟨r, hr, hl⟩ := rangeLoop_total t seg.length 0 seg (List.replicate seg.length 0)
    (le_refl _) (by simp)
  exact ⟨r, hr, by simpa using hl⟩

theorem normalizeSegmentByType_ascii (seg : Bytes) (t : Nat) (ht : t < 3)
    (h : ∀ c ∈ seg, c < 128) :
    normalizeSegmentByType seg t = .ok (seg.map (remapByte t)) := by
  have := rangeLoop_ascii t ht seg.length [] seg (le_refl _) h
  simpa [normalizeSegmentByType] using this

theorem normalizeSegmentByType_nil (t : Nat) : normalizeSegmentByType [] t = .ok [] := rfl

/-- One round of the segment loop, for a segment that fits in the string. -/
theorem segmentStep_eq (s : Bytes) (segLens segTypes : List Nat) (st : Bytes × Nat)
    (i n t : Nat) (seg1 : Bytes)
    (hn : byteAt segLens i = .ok n) (ht : byteAt segTypes i = .ok t)
    (hle : st.2 + n ≤ s.length)
    (hseg : normalizeSegmentByType ((s.take (st.2 + n)).drop st.2) t = .ok seg1) :
    segmentStep s segLens segTypes st i = .ok (st.1 ++ seg1, st.2 + n) := by
  unfold segmentStep
  rw [hn]
  simp only [min_eq_left hle]
  by_cases h0 : n = 0
  · subst h0
    have hnil : (s.take (st.2 + 0)).drop st.2 = [] := by simp
    rw [hnil, normalizeSegmentByType_nil] at hseg
    cases hseg
    simp
  · have hlt : ¬ st.2 ≥ st.2 + n := by omega
    rw [if_neg hlt]
    have hs : slice s st.2 (st.2 + n) = .ok ((s.take (st.2 + n)).drop st.2) := by
      simp [slice, hle]
    rw [hs]
    simp only []
    rw [ht]
    simp only []
    rw [hseg]

/-- The lengths of the three segments that `normalizeSegmented` computes. -/
theorem segLens_sum (L : Nat) :
    (if 0 < L % 3 then L / 3 + 1 else L / 3) + (if 1 < L % 3 then L / 3 + 1 else L / 3)
      + (if 2 < L % 3 then L / 3 + 1 else L / 3) = L := by
  have := Nat.mod_lt L (show 0 < 3 by decide)
  split_ifs <;> omega

/-- The result of `normalizeSegmented` on a string of three or more bytes, from
the results of `normalizeSegmentByType` on its three segments. -/
theorem normalizeSegmented_three (sha256 : Bytes → Digest) (s : Bytes) (hL : 3 ≤ s.length)
    (n0 n1 n2 : Nat) (r0 r1 r2 : Bytes)
    (hn0 : n0 = if 0 < s.length % 3 then s.length / 3 + 1 else s.length / 3)
    (hn1 : n1 = if 1 < s.length % 3 then s.length / 3 + 1 else s.length / 3)
    (hn2 : n2 = if 2 < s.length % 3 then s.length / 3 + 1 else s.length / 3)
    (h0 : normalizeSegmentByType (s.take n0) ((sha256 s 0).val % 3) = .ok r0)
    (h1 : normalizeSegmentByType ((s.take (n0 + n1)).drop n0) ((sha256 s 1).val % 3) = .ok r1)
    (h2 : normalizeSegmentByType ((s.take (n0 + n1 + n2)).drop (n0 + n1)) ((sha256 s 2).val % 3)
      = .ok r2) :
    normalizeSegmented sha256 s = .ok (r0 ++ r1 ++ r2) := by
  have hsum : n0 + n1 + n2 = s.length := by rw [hn0, hn1, hn2]; exact segLens_sum _
  have hne : ¬ s.length = 0 := by omega
  have hge : ¬ s.length < 3 := by omega
  unfold normalizeSegmented
  rw [if_neg hne]
  simp only [if_neg hge, List.map_cons, List.map_nil, ← hn0, ← hn1, ← hn2]
  have e0 := segmentStep_eq s [n0, n1, n2]
    [(sha256 s 0).val % 3, (sha256 s 1).val % 3, (sha256 s 2).val % 3] ([], 0) 0 n0 _ r0
    rfl rfl (by simp only []; omega) (by simpa using h0)
  have e1 := segmentStep_eq s [n0, n1, n2]
    [(sha256 s 0).val % 3, (sha256 s 1).val % 3, (sha256 s 2).val % 3] ([] ++ r0, 0 + n0) 1 n1 _ r1
    rfl rfl (by simp only []; omega) (by simpa using h1)
  have e2 := segmentStep_eq s [n0, n1, n2]
    [(sha256 s 0).val % 3, (sha256 s 1).val % 3, (sha256 s 2).val % 3]
    ([] ++ r0 ++ r1, 0 + n0 + n1) 2 n2 _ r2
    rfl rfl (by simp only []; omega) (by simpa using h2)
  simp only [List.foldlM, bind, Except.bind, e0, e1, e2, pure, Except.pure]
  simp

/-- `normalizeSegmented` returns, whatever the bytes of the string are, a
string of the same length. -/
theorem normalizeSegmented_total (sha256 : Bytes → Digest) (s : Bytes) :
    ∃ r, normalizeSegmented sha256 s = .ok r ∧ r.length = s.length := by
  by_cases h0 : s.length = 0
  · exact ⟨s, by simp [normalizeSegmented, h0], rfl⟩
  · by_cases h3 : s.length < 3
    · obtain ⟨r, hr, hl⟩ := normalizeSegmentByType_total s ((sha256 s 0).val % 3)
      refine ⟨r, ?_, hl⟩
      unfold normalizeSegmented
      rw [if_neg h0]
      simp only [if_pos h3]
      exact hr
    · obtain ⟨r0, hr0, hl0⟩ := normalizeSegmentByType_total
        (s.take (if 0 < s.length % 3 then s.length / 3 + 1 else s.length / 3))
        ((sha256 s 0).val % 3)
      obtain ⟨r1, hr1, hl1⟩ := normalizeSegmentByType_total
        ((s.take ((if 0 < s.length % 3 then s.length / 3 + 1 else s.length / 3)
          + (if 1 < s.length % 3 then s.length / 3 + 1 else s.length / 3))).drop
          (if 0 < s.length % 3 then s.length / 3 + 1 else s.length / 3))
        ((sha256 s 1).val % 3)
      obtain ⟨r2, hr2, hl2⟩ := normalizeSegmentByType_total
        ((s.take ((if 0 < s.length % 3 then s.length / 3 + 1 else s.length / 3)
          + (if 1 < s.length % 3 then s.length / 3 + 1 else s.length / 3)
          + (if 2 < s.length % 3 then s.length / 3 + 1 else s.length / 3))).drop
          ((if 0 < s.length % 3 then s.length / 3 + 1 else s.length / 3)
          + (if 1 < s.length % 3 then s.length / 3 + 1 else s.length / 3)))
        ((sha256 s 2).val % 3)
      refine ⟨r0 ++ r1 ++ r2,
        normalizeSegmented_three sha256 s (by omega) _ _ _ r0 r1 r2 rfl rfl rfl hr0 hr1 hr2, ?_⟩
      have hsum := segLens_sum s.length
      simp only [List.length_append, hl0, hl1, hl2, List.length_take, List.length_drop]
      omega

theorem isBase62_lt : ∀ c ∈ base62Alphabet, c < 128 := by decide

theorem remapByte_eq_remapSpec : ∀ c ∈ base62Alphabet, ∀ t, t < 3 →
    remapByte t c = remapSpec t c := by
  decide

theorem segmentLengthSpec_eq (L i : Nat) :
    segmentLengthSpec L i = if i < L % 3 then L / 3 + 1 else L / 3 := by
  unfold segmentLengthSpec
  split_ifs <;> rfl

theorem map_remapByte_eq (t : Nat) (ht : t < 3) (seg : Bytes) (h : ∀ c ∈ seg, isBase62 c) :
    seg.map (remapByte t) = seg.map (remapSpec t) :=
  List.map_congr_left (fun c hc => remapByte_eq_remapSpec c (h c hc) t ht)

/-- On a string of alphabet characters `normalizeSegmented` returns the string
of the reference definition. -/
theorem normalizeSegmented_eq_spec (sha256 : Bytes → Digest) (s : Bytes)
    (h : ∀ c ∈ s, isBase62 c) :
    normalizeSegmented sha256 s = .ok (normalizeSegmentedSpec sha256 s) := by
  have hasc : ∀ c ∈ s, c < 128 := fun c hc => isBase62_lt c (h c hc)
  by_cases h0 : s.length = 0
  · have hnil : s = [] := List.length_eq_zero.mp h0
    subst hnil
    rfl
  · by_cases h3 : s.length < 3
    · have hspec : normalizeSegmentedSpec sha256 s
          = s.map (remapSpec ((sha256 s 0).val % 3)) := by
        unfold normalizeSegmentedSpec
        simp only []
        rw [if_neg (by omega), if_pos (by omega)]
      rw [hspec, ← map_remapByte_eq _ (Nat.mod_lt _ (by decide)) s h,
        ← normalizeSegmentByType_ascii s _ (Nat.mod_lt _ (by decide)) hasc]
      unfold normalizeSegmented
      rw [if_neg h0]
      simp only [if_pos h3]
      rfl
    · have hspec : normalizeSegmentedSpec sha256 s
          = (s.take (segmentLengthSpec s.length 0)).map (remapSpec ((sha256 s 0).val % 3))
            ++ ((s.drop (segmentLengthSpec s.length 0)).take
                (segmentLengthSpec s.length 1)).map (remapSpec ((sha256 s 1).val % 3))
            ++ ((s.drop (segmentLengthSpec s.length 0 + segmentLengthSpec s.length 1)).take
                (segmentLengthSpec s.length 2)).map (remapSpec ((sha256 s 2).val % 3)) := by
        unfold normalizeSegmentedSpec
        simp only []
        rw [if_pos (by omega)]
      rw [hspec]
      have hsub0 : ∀ c ∈ s.take (segmentLengthSpec s.length 0), isBase62 c :=
        fun c hc => h c (List.mem_of_mem_take hc)
      have hsub1 : ∀ c ∈ (s.drop (segmentLengthSpec s.length 0)).take
          (segmentLengthSpec s.length 1), isBase62 c :=
        fun c hc => h c (List.mem_of_mem_drop (List.mem_of_mem_take hc))
      have hsub2 : ∀ c ∈ (s.drop (segmentLengthSpec s.length 0
          + segmentLengthSpec s.length 1)).take (segmentLengthSpec s.length 2), isBase62 c :=
        fun c hc => h c (List.mem_of_mem_drop (List.mem_of_mem_take hc))
      rw [← map_remapByte_eq _ (Nat.mod_lt _ (by decide)) _ hsub0,
        ← map_remapByte_eq _ (Nat.mod_lt _ (by decide)) _ hsub1,
        ← map_remapByte_eq _ (Nat.mod_lt _ (by decide)) _ hsub2]
      refine normalizeSegmented_three sha256 s (by omega)
        (segmentLengthSpec s.length 0) (segmentLengthSpec s.length 1)
        (segmentLengthSpec s.length 2) _ _ _
        (segmentLengthSpec_eq _ _) (segmentLengthSpec_eq _ _) (segmentLengthSpec_eq _ _)
        ?_ ?_ ?_
      · exact normalizeSegmentByType_ascii _ _ (Nat.mod_lt _ (by decide))
          (fun c hc => isBase62_lt c (hsub0 c hc))
      · rw [List.drop_take, Nat.add_sub_cancel_left]
        exact normalizeSegmentByType_ascii _ _ (Nat.mod_lt _ (by decide))
          (fun c hc => isBase62_lt c (hsub1 c hc))
      · rw [List.drop_take, Nat.add_sub_cancel_left]
        exact normalizeSegmentByType_ascii _ _ (Nat.mod_lt _ (by decide))
          (fun c hc => isBase62_lt c (hsub2 c hc))

/-- C9: on a string of alphabet characters `normalizeSegmented` returns what
the reference definition of the specification describes: for `L ≥ 3` three
contiguous segments of lengths `L div 3 + (1 if i < L mod 3 else 0)`, each
character of segment `i` replaced according to `SHA-256(s)[i] mod 3`, and for
`1 ≤ L < 3` one segment typed by `SHA-256(s)[0] mod 3`. The three lengths sum
to `L`, the segments make up `s` in order, the result has the length of `s`,
and the lengths are 5, 4, 4 for `L = 13` and 4, 3, 3 for `L = 10`. -/
theorem normalizeSegmented_refines_spec (sha256 : Bytes → Digest) (s : Bytes)
    (h : ∀ c ∈ s, isBase62 c) :
    normalizeSegmented sha256 s = .ok (normalizeSegmentedSpec sha256 s) ∧
      segmentLengthSpec s.length 0 + segmentLengthSpec s.length 1
        + segmentLengthSpec s.length 2 = s.length ∧
      s.take (segmentLengthSpec s.length 0)
        ++ (s.drop (segmentLengthSpec s.length 0)).take (segmentLengthSpec s.length 1)
        ++ (s.drop (segmentLengthSpec s.length 0 + segmentLengthSpec s.length 1)).take
            (segmentLengthSpec s.length 2) = s ∧
      (normalizeSegmentedSpec sha256 s).length = s.length ∧
      [0, 1, 2].map (segmentLengthSpec 13) = [5, 4, 4] ∧
      [0, 1, 2].map (segmentLengthSpec 10) = [4, 3, 3] := by
  have hsum : segmentLengthSpec s.length 0 + segmentLengthSpec s.length 1
      + segmentLengthSpec s.length 2 = s.length := by
    simp only [segmentLengthSpec_eq]
    exact segLens_sum _
  have hcat : s.take (segmentLengthSpec s.length 0)
      ++ (s.drop (segmentLengthSpec s.length 0)).take (segmentLengthSpec s.length 1)
      ++ (s.drop (segmentLengthSpec s.length 0 + segmentLengthSpec s.length 1)).take
          (segmentLengthSpec s.length 2) = s := by
    have h2 : (s.drop (segmentLengthSpec s.length 0 + segmentLengthSpec s.length 1)).take
        (segmentLengthSpec s.length 2)
        = s.drop (segmentLengthSpec s.length 0 + segmentLengthSpec s.length 1) := by
      apply List.take_of_length_le
      rw [List.length_drop]
      omega
    rw [h2, List.append_assoc, ← List.drop_drop, List.take_append_drop, List.take_append_drop]
  have hmain := normalizeSegmented_eq_spec sha256 s h
  refine ⟨hmain, hsum, hcat, ?_, by decide, by decide⟩
  obtain ⟨r, hr, hl⟩ := normalizeSegmented_total sha256 s
  rw [hmain] at hr
  cases hr
  exact hl

/-- Witness of C9 at the 13-character string "abcdefghijklm". -/
theorem normalizeSegmented_refines_spec_witness :
    (∀ c ∈ bytesOf "abcdefghijklm", isBase62 c) ∧
      normalizeSegmented toyDigest (bytesOf "abcdefghijklm")
        = .ok (normalizeSegmentedSpec toyDigest (bytesOf "abcdefghijklm")) :=
  ⟨by decide, (normalizeSegmented_refines_spec toyDigest (bytesOf "abcdefghijklm")
    (by decide)).1⟩

/-! ## The policy enforcer -/

theorem pickIndex_lt (sha256 : Bytes → Digest) (site : Bytes) (len : Nat) (label : Bytes)
    (h : 0 < len) : pickIndex sha256 site len label < len := by
  unfold pickIndex
  rw [if_neg (by omega)]
  exact Nat.mod_lt _ h

theorem byteAt_getD (b : Bytes) (i : Nat) (h : i < b.length) : byteAt b i = .ok (b.getD i 0) := by
  simp [byteAt, List.getD, List.getElem?_eq_getElem h]

/-- The upper, lower and digit steps overwrite the picked position. -/
theorem rewriteAt_eq (sha256 : Bytes → Digest) (site label : Bytes) (first modulus : Int)
    (b : Bytes) (h : 0 < b.length) :
    rewriteAt sha256 site label first modulus b
      = .ok (b.set (pickIndex sha256 site b.length label)
          (rewriteByte first modulus (b.getD (pickIndex sha256 site b.length label) 0))) := by
  have hlt := pickIndex_lt sha256 site b.length label h
  unfold rewriteAt
  simp only []
  rw [byteAt_getD b _ hlt]
  simp only [setAt, if_pos hlt, rewriteByte]

/-- The special step overwrites the picked position with the picked special
character. -/
theorem writeSpecial_eq (sha256 : Bytes → Digest) (site sc b : Bytes) (h : 0 < b.length)
    (hsc : 0 < sc.length) :
    writeSpecial sha256 site sc b
      = .ok (b.set (pickIndex sha256 site b.length (bytesOf "special"))
          (sc.getD ((sha256 (site ++ bytesOf "|special_char") 1).val % sc.length) 0)) := by
  have hlt := pickIndex_lt sha256 site b.length (bytesOf "special") h
  unfold writeSpecial
  simp only []
  rw [byteAt_getD sc _ (Nat.mod_lt _ hsc)]
  simp only [setAt, if_pos hlt]

/-- `applyPolicy` returns, for every string and policy, a string of the same
length. -/
theorem applyPolicy_total (sha256 : Bytes → Digest) (s : Bytes) (p : SitePolicy) :
    ∃ r, applyPolicy sha256 s p = .ok r ∧ r.length = s.length := by
  have step : ∀ (label : Bytes) (first modulus : Int) (c : Prop) [Decidable c] (b : Bytes),
      ∃ b1, (if c ∧ b.length > 0 then rewriteAt sha256 p.Site label first modulus b
        else .ok b) = Except.ok b1 ∧ b1.length = b.length := by
    intro label first modulus c _ b
    by_cases hc : c ∧ b.length > 0
    · rw [if_pos hc, rewriteAt_eq _ _ _ _ _ _ hc.2]
      exact ⟨_, rfl, by simp⟩
    · rw [if_neg hc]
      exact ⟨_, rfl, rfl⟩
  obtain ⟨b1, h1, l1⟩ := step (bytesOf "upper") 65 26
    (p.RequireUpper = true ∧ ¬ (classify s).hasUpper = true) s
  obtain ⟨b2, h2, l2⟩ := step (bytesOf "lower") 97 26
    (p.RequireLower = true ∧ ¬ (classify s).hasLower = true) b1
  obtain ⟨b3, h3, l3⟩ := step (bytesOf "digit") 48 10
    (p.RequireDigit = true ∧ ¬ (classify s).hasDigit = true) b2
  unfold applyPolicy
  simp only [and_assoc] at h1 h2 h3
  simp only [h1, h2, h3]
  by_cases h4 : p.RequireSpecial = true ∧ ¬ (classify s).hasSpecial = true ∧ b3.length > 0
      ∧ p.SpecialChars.length > 0
  · rw [if_pos h4, writeSpecial_eq _ _ _ _ h4.2.2.1 h4.2.2.2]
    exact ⟨_, rfl, by simp [l1, l2, l3]⟩
  · rw [if_neg h4]
    exact ⟨_, rfl, by rw [l3, l2, l1]⟩

/-! ## `Normalize` and `pw` -/

theorem targetLength_pos (policy : Option SitePolicy) : 0 < targetLength policy := by
  unfold targetLength
  cases policy with
  | none => decide
  | some p =>
    simp only []
    split_ifs with h
    · exact h
    · decide

theorem Normalize_nil (sha256 : Bytes → Digest) (policy : Option SitePolicy) :
    Normalize sha256 policy [] = .ok [] := rfl

theorem Normalize_short (sha256 : Bytes → Digest) (policy : Option SitePolicy) (s : Bytes)
    (hs : s ≠ []) (h : (s.length : Int) < targetLength policy) :
    Normalize sha256 policy s = .error .encodedTooShort := by
  have h0 : ¬ s.length = 0 := fun h0 => hs (List.length_eq_zero.mp h0)
  unfold Normalize
  rw [if_neg h0]
  simp only [if_pos h]

/-- `Normalize` on a string that is long enough: truncation, segment
normalization, then enforcement when a policy is present. -/
theorem Normalize_long (sha256 : Bytes → Digest) (policy : Option SitePolicy) (s : Bytes)
    (h : targetLength policy ≤ (s.length : Int)) :
    ∃ base r, normalizeSegmented sha256 (s.take (targetLength policy).toNat) = .ok base ∧
      base.length = (targetLength policy).toNat ∧
      (match policy with
        | none => r = base
        | some p => applyPolicy sha256 base p = .ok r) ∧
      Normalize sha256 policy s = .ok r ∧ (r.length : Int) = targetLength policy := by
  have hpos := targetLength_pos policy
  have h0 : ¬ s.length = 0 := by omega
  have hlt : ¬ (s.length : Int) < targetLength policy := by omega
  have hn : (targetLength policy).toNat ≤ s.length := by omega
  obtain ⟨base, hb, hl⟩ := normalizeSegmented_total sha256 (s.take (targetLength policy).toNat)
  have hbl : base.length = (targetLength policy).toNat := by
    rw [hl, List.length_take]; omega
  have hslice : slice s 0 (targetLength policy).toNat
      = .ok (s.take (targetLength policy).toNat) := by
    simp [slice, hn]
  cases policy with
  | none =>
    refine ⟨base, base, hb, hbl, rfl, ?_, by omega⟩
    unfold Normalize
    rw [if_neg h0]
    simp only [if_neg hlt, hslice, hb]
  | some p =>
    obtain ⟨r, hr, hrl⟩ := applyPolicy_total sha256 base p
    refine ⟨base, r, hb, hbl, hr, ?_, by omega⟩
    unfold Normalize
    rw [if_neg h0]
    simp only [if_neg hlt, hslice, hb, hr]

/-- C7: for every policy, absent or present, and every string `s` at least
as long as the target length `L` (`MaxLen` of a present policy with
`MaxLen > 0`, else 12), `Normalize` returns a string of length exactly `L`. -/
theorem Normalize_length (sha256 : Bytes → Digest) (policy : Option SitePolicy) (s : Bytes)
    (h : targetLength policy ≤ (s.length : Int)) :
    ∃ r, Normalize sha256 policy s = .ok r ∧ (r.length : Int) = targetLength policy := by
  obtain ⟨_, r, _, _, _, hr, hl⟩ := Normalize_long sha256 policy s h
  exact ⟨r, hr, hl⟩

/-- Witness of C7: a policy with `MaxLen = 20` and no requirement flag, on a
string of 26 characters, yields 20 characters. -/
theorem Normalize_length_witness :
    targetLength (some ⟨bytesOf "example.com", 20, false, false, false, false, bytesOf "!@#$%^&*"⟩)
        ≤ ((bytesOf "abcdefghijklmnopqrstuvwxyz").length : Int) ∧
      ∃ r, Normalize toyDigest
          (some ⟨bytesOf "example.com", 20, false, false, false, false, bytesOf "!@#$%^&*"⟩)
          (bytesOf "abcdefghijklmnopqrstuvwxyz") = .ok r ∧ (r.length : Int) = 20 :=
  ⟨by decide, Normalize_length toyDigest
    (some ⟨bytesOf "example.com", 20, false, false, false, false, bytesOf "!@#$%^&*"⟩)
    (bytesOf "abcdefghijklmnopqrstuvwxyz") (by decide)⟩

/-- Counterexample to C8 as stated: the empty string is shorter than the
target length 12, yet `Normalize` returns it (the guard `len(s) == 0` comes
before the length check) instead of failing with the length violation. -/
theorem Normalize_empty_not_rejected :
    ((([] : Bytes).length : Int) < targetLength none) ∧
      Normalize toyDigest none [] = .ok [] ∧
      Normalize toyDigest none [] ≠ .error .encodedTooShort :=
  ⟨by decide, by decide, by decide⟩

/-- C8, amended: for every non-empty string `s` and every policy, `Normalize`
fails with the length violation exactly when `s` is shorter than the target
length, and every string it returns has exactly the target length. -/
theorem Normalize_length_violation (sha256 : Bytes → Digest) (policy : Option SitePolicy)
    (s : Bytes) (hs : s ≠ []) :
    (Normalize sha256 policy s = .error .encodedTooShort
        ↔ (s.length : Int) < targetLength policy) ∧
      ∀ r, Normalize sha256 policy s = .ok r → (r.length : Int) = targetLength policy := by
  by_cases h : (s.length : Int) < targetLength policy
  · have hN := Normalize_short sha256 policy s hs h
    refine ⟨⟨fun _ => h, fun _ => hN⟩, ?_⟩
    intro r hr
    rw [hN] at hr
    cases hr
  · obtain ⟨_, r, _, _, _, hr, hl⟩ := Normalize_long sha256 policy s (by omega)
    refine ⟨⟨?_, fun h2 => absurd h2 h⟩, ?_⟩
    · intro he
      rw [hr] at he
      cases he
    · intro r2 hr2
      rw [hr] at hr2
      cases hr2
      exact hl

/-- Witness of C8, amended, at the one-character string "a" without policy. -/
theorem Normalize_length_violation_witness :
    (bytesOf "a" ≠ []) ∧
      (Normalize toyDigest none (bytesOf "a") = .error .encodedTooShort
        ↔ ((bytesOf "a").length : Int) < targetLength none) :=
  ⟨by decide, (Normalize_length_violation toyDigest none (bytesOf "a") (by decide)).1⟩

/-- The result of `pw`, from the results of its three stages. -/
theorem pw_eq (hmac : Bytes → Bytes → Digest) (sha256 : Bytes → Digest) (secret : Bytes)
    (policy : Option SitePolicy) (site : Bytes) (fuel : Nat) (encoded0 encoded : Bytes)
    (h0 : Encode (hmac secret site).bytes = .ok encoded0)
    (h1 : stretchLoop hmac secret (targetLength policy) fuel encoded0 = .ok encoded) :
    pw hmac sha256 secret policy site fuel = Normalize sha256 policy encoded := by
  unfold pw
  simp only [h0, h1]

/-- C5: for every secret, site and policy (absent or present, with any
`MaxLen`, flags and `SpecialChars`), `pw`, given as many loop iterations as the
target length, returns a password: the string handed to `Normalize` is at
least as long as the target length, no index or slice is out of range
(`Encode` and `applyPolicy` return for every input), and the password is not
empty. -/
theorem pw_never_fails (hmac : Bytes → Bytes → Digest) (sha256 : Bytes → Digest)
    (secret : Bytes) (policy : Option SitePolicy) (site : Bytes) (fuel : Nat)
    (hfuel : (targetLength policy).toNat ≤ fuel) :
    ∃ encoded0 encoded password,
      Encode (hmac secret site).bytes = .ok encoded0 ∧
      stretchLoop hmac secret (targetLength policy) fuel encoded0 = .ok encoded ∧
      targetLength policy ≤ (encoded.length : Int) ∧
      Normalize sha256 policy encoded = .ok password ∧
      pw hmac sha256 secret policy site fuel = .ok password ∧
      password ≠ [] ∧
      (∀ b, ∃ r, Encode b = .ok r) ∧
      (∀ s q, ∃ r, applyPolicy sha256 s q = .ok r) := by
  obtain ⟨e0, he0, _, _⟩ := Encode_digest (hmac secret site)
  obtain ⟨enc, henc, hge, _, _⟩ := stretchLoop_ok hmac secret (targetLength policy) fuel e0
    (by omega)
  obtain ⟨_, r, _, _, _, hr, hl⟩ := Normalize_long sha256 policy enc hge
  have hpos := targetLength_pos policy
  refine ⟨e0, enc, r, he0, henc, hge, hr, ?_, ?_, ?_, ?_⟩
  · rw [pw_eq hmac sha256 secret policy site fuel e0 enc he0 henc, hr]
  · intro hnil
    rw [hnil] at hl
    simp at hl
    omega
  · intro b
    obtain ⟨r, hr, _⟩ := Encode_total b
    exact ⟨r, hr⟩
  · intro s q
    obtain ⟨r, hr, _⟩ := applyPolicy_total sha256 s q
    exact ⟨r, hr⟩

/-- Witness of C5 at a policy with `MaxLen = 0`, every flag set and an empty
`SpecialChars`. -/
theorem pw_never_fails_witness :
    (targetLength (some ⟨bytesOf "example.com", 0, true, true, true, true, []⟩)).toNat ≤ 12 ∧
      ∃ password, pw toyHmac toyDigest (bytesOf "test-secret-key")
        (some ⟨bytesOf "example.com", 0, true, true, true, true, []⟩)
        (bytesOf "example.com") 12 = .ok password ∧ password ≠ [] :=
  ⟨by decide,
    let ⟨_, _, password, _, _, _, _, h, hne, _⟩ := pw_never_fails toyHmac toyDigest
      (bytesOf "test-secret-key")
      (some ⟨bytesOf "example.com", 0, true, true, true, true, []⟩)
      (bytesOf "example.com") 12 (by decide)
    ⟨password, h, hne⟩⟩

theorem remapSpec_isAlnum (t c : Nat) : isAlnum (remapSpec t c) := by
  have h26 := Nat.mod_lt (alphabetIndex c) (show 0 < 26 by decide)
  have h10 := Nat.mod_lt (alphabetIndex c) (show 0 < 10 by decide)
  unfold isAlnum isUpper isLower isDigit remapSpec
  split_ifs <;> omega

theorem normalizeSegmentedSpec_isAlnum (sha256 : Bytes → Digest) (s : Bytes)
    (h : ∀ c ∈ s, isBase62 c) : ∀ c ∈ normalizeSegmentedSpec sha256 s, isAlnum c := by
  intro c hc
  unfold normalizeSegmentedSpec at hc
  simp only [] at hc
  split_ifs at hc with h3 h1
  · simp only [List.mem_append, List.mem_map] at hc
    rcases hc with (⟨x, _, rfl⟩ | ⟨x, _, rfl⟩) | ⟨x, _, rfl⟩ <;> exact remapSpec_isAlnum _ _
  · simp only [List.mem_map] at hc
    obtain ⟨x, _, rfl⟩ := hc
    exact remapSpec_isAlnum _ _
  · have : s = [] := List.length_eq_zero.mp (by omega)
    subst this
    simp at hc

/-- C6: for every secret and site, when no policy is present `pw`, given
twelve loop iterations or more, returns a string of exactly 12 characters,
each of them in `[A-Za-z0-9]`. -/
theorem pw_default_shape (hmac : Bytes → Bytes → Digest) (sha256 : Bytes → Digest)
    (secret site : Bytes) (fuel : Nat) (hfuel : 12 ≤ fuel) :
    ∃ password, pw hmac sha256 secret none site fuel = .ok password ∧
      password.length = 12 ∧ ∀ c ∈ password, isAlnum c := by
  obtain ⟨e0, he0, _, hc0⟩ := Encode_digest (hmac secret site)
  obtain ⟨enc, henc, hge, _, hall⟩ := stretchLoop_ok hmac secret (targetLength none) fuel e0
    (by simp only [targetLength]; omega)
  obtain ⟨base, r, hb, _, hr, hN, hl⟩ := Normalize_long sha256 none enc hge
  simp only [] at hr
  subst hr
  have htake : ∀ c ∈ enc.take (targetLength none).toNat, isBase62 c :=
    fun c hc => hall hc0 c (List.mem_of_mem_take hc)
  have hspec := normalizeSegmented_eq_spec sha256 _ htake
  rw [hspec] at hb
  cases hb
  refine ⟨_, ?_, ?_, normalizeSegmentedSpec_isAlnum sha256 _ htake⟩
  · rw [pw_eq hmac sha256 secret none site fuel e0 enc he0 henc, hN]
  · have : targetLength none = 12 := rfl
    rw [this] at hl
    exact_mod_cast hl

/-- Witness of C6 at the secret "test-secret-key" and the site "example.com". -/
theorem pw_default_shape_witness :
    12 ≤ 12 ∧
      ∃ password, pw toyHmac toyDigest (bytesOf "test-secret-key") none
        (bytesOf "example.com") 12 = .ok password ∧
        password.length = 12 ∧ ∀ c ∈ password, isAlnum c :=
  ⟨by decide, pw_default_shape toyHmac toyDigest (bytesOf "test-secret-key")
    (bytesOf "example.com") 12 (by decide)⟩

theorem rewriteAt_step (sha256 : Bytes → Digest) (site label : Bytes) (first modulus : Int)
    (c1 c2 : Prop) [Decidable c1] [Decidable c2] (b : Bytes) :
    (if c1 ∧ c2 ∧ b.length > 0 then rewriteAt sha256 site label first modulus b else .ok b)
      = Except.ok (rewriteStep sha256 site label first modulus (c1 ∧ c2) b) := by
  unfold rewriteStep
  by_cases hc : c1 ∧ c2 ∧ b.length > 0
  · rw [if_pos hc, rewriteAt_eq _ _ _ _ _ _ hc.2.2, if_pos ⟨⟨hc.1, hc.2.1⟩, hc.2.2⟩]
  · rw [if_neg hc, if_neg (fun h => hc ⟨h.1.1, h.1.2, h.2⟩)]

theorem writeSpecial_step (sha256 : Bytes → Digest) (site sc : Bytes)
    (c1 c2 : Prop) [Decidable c1] [Decidable c2] (b : Bytes) :
    (if c1 ∧ c2 ∧ b.length > 0 ∧ sc.length > 0 then writeSpecial sha256 site sc b else .ok b)
      = Except.ok (specialStep sha256 site sc (c1 ∧ c2) b) := by
  unfold specialStep
  by_cases hc : c1 ∧ c2 ∧ b.length > 0 ∧ sc.length > 0
  · rw [if_pos hc, writeSpecial_eq _ _ _ _ hc.2.2.1 hc.2.2.2,
      if_pos ⟨⟨hc.1, hc.2.1⟩, hc.2.2.1, hc.2.2.2⟩]
  · rw [if_neg hc, if_neg (fun h => hc ⟨h.1.1, h.1.2, h.2.1, h.2.2⟩)]

/-- `applyPolicy` never fails: it returns the string `enforced`. -/
theorem applyPolicy_eq_enforced (sha256 : Bytes → Digest) (s : Bytes) (p : SitePolicy) :
    applyPolicy sha256 s p = .ok (enforced sha256 s p) := by
  unfold applyPolicy enforced
  simp only [rewriteAt_step, writeSpecial_step]

theorem rewriteStep_length (sha256 : Bytes → Digest) (site label : Bytes) (first modulus : Int)
    (fire : Prop) [Decidable fire] (b : Bytes) :
    (rewriteStep sha256 site label first modulus fire b).length = b.length := by
  unfold rewriteStep
  split_ifs <;> simp

theorem specialStep_length (sha256 : Bytes → Digest) (site sc : Bytes)
    (fire : Prop) [Decidable fire] (b : Bytes) :
    (specialStep sha256 site sc fire b).length = b.length := by
  unfold specialStep
  split_ifs <;> simp

theorem classifyByte_hasUpper (c : Composition) (x : Nat) :
    (classifyByte c x).hasUpper = true ↔ c.hasUpper = true ∨ isUpper x := by
  unfold classifyByte isUpper
  split_ifs <;> simp <;> omega

theorem classifyByte_hasLower (c : Composition) (x : Nat) :
    (classifyByte c x).hasLower = true ↔ c.hasLower = true ∨ isLower x := by
  unfold classifyByte isLower
  split_ifs <;> simp <;> omega

theorem classifyByte_hasDigit (c : Composition) (x : Nat) :
    (classifyByte c x).hasDigit = true ↔ c.hasDigit = true ∨ isDigit x := by
  unfold classifyByte isDigit
  split_ifs <;> simp <;> omega

theorem classifyByte_hasSpecial (c : Composition) (x : Nat) :
    (classifyByte c x).hasSpecial = true ↔ c.hasSpecial = true ∨ ¬ isAlnum x := by
  unfold classifyByte isAlnum isUpper isLower isDigit
  split_ifs <;> simp <;> omega

theorem foldl_flag (flag : Composition → Bool) (P : Nat → Prop)
    (hstep : ∀ c x, flag (classifyByte c x) = true ↔ flag c = true ∨ P x) (b : Bytes) :
    ∀ c0, flag (b.foldl classifyByte c0) = true ↔ flag c0 = true ∨ ∃ x ∈ b, P x := by
  induction b with
  | nil => intro c0; simp
  | cons x b ih =>
    intro c0
    rw [List.foldl_cons, ih, hstep]
    simp only [List.mem_cons, exists_eq_or_imp, or_assoc]

/-- The flag `hasUpper` says that the string holds an uppercase letter. -/
theorem classify_hasUpper (b : Bytes) : (classify b).hasUpper = true ↔ ∃ x ∈ b, isUpper x := by
  have := foldl_flag Composition.hasUpper isUpper classifyByte_hasUpper b
    ⟨false, false, false, false⟩
  simpa [classify] using this

/-- The flag `hasLower` says that the string holds a lowercase letter. -/
theorem classify_hasLower (b : Bytes) : (classify b).hasLower = true ↔ ∃ x ∈ b, isLower x := by
  have := foldl_flag Composition.hasLower isLower classifyByte_hasLower b
    ⟨false, false, false, false⟩
  simpa [classify] using this

/-- The flag `hasDigit` says that the string holds a digit. -/
theorem classify_hasDigit (b : Bytes) : (classify b).hasDigit = true ↔ ∃ x ∈ b, isDigit x := by
  have := foldl_flag Composition.hasDigit isDigit classifyByte_hasDigit b
    ⟨false, false, false, false⟩
  simpa [classify] using this

/-- The flag `hasSpecial` says that the string holds a byte outside
`[A-Za-z0-9]`. -/
theorem classify_hasSpecial (b : Bytes) :
    (classify b).hasSpecial = true ↔ ∃ x ∈ b, ¬ isAlnum x := by
  have := foldl_flag Composition.hasSpecial (fun x => ¬ isAlnum x) classifyByte_hasSpecial b
    ⟨false, false, false, false⟩
  simpa [classify] using this

theorem rewriteByte_upper (orig : Nat) : isUpper (rewriteByte 65 26 orig) := by
  unfold isUpper rewriteByte toByte
  have hk : 0 ≤ max (IndexByte base62Alphabet orig) 0 := le_max_right _ _
  generalize max (IndexByte base62Alphabet orig) 0 = k at hk
  omega

theorem rewriteByte_lower (orig : Nat) : isLower (rewriteByte 97 26 orig) := by
  unfold isLower rewriteByte toByte
  have hk : 0 ≤ max (IndexByte base62Alphabet orig) 0 := le_max_right _ _
  generalize max (IndexByte base62Alphabet orig) 0 = k at hk
  omega

theorem rewriteByte_digit (orig : Nat) : isDigit (rewriteByte 48 10 orig) := by
  unfold isDigit rewriteByte toByte
  have hk : 0 ≤ max (IndexByte base62Alphabet orig) 0 := le_max_right _ _
  generalize max (IndexByte base62Alphabet orig) 0 = k at hk
  omega

theorem getD_set_ne (b : Bytes) (i k v : Nat) (h : k ≠ i) : (b.set i v).getD k 0 = b.getD k 0 := by
  simp [List.getD, List.getElem?_set_ne (Ne.symm h)]

theorem getD_set_eq (b : Bytes) (i v : Nat) (h : i < b.length) : (b.set i v).getD i 0 = v := by
  simp [List.getD, List.getElem?_set_self, h]

theorem rewriteStep_getD_ne (sha256 : Bytes → Digest) (site label : Bytes)
    (first modulus : Int) (fire : Prop) [Decidable fire] (b : Bytes) (k : Nat)
    (h : k ≠ pickIndex sha256 site b.length label) :
    (rewriteStep sha256 site label first modulus fire b).getD k 0 = b.getD k 0 := by
  unfold rewriteStep
  split_ifs
  · exact getD_set_ne _ _ _ _ h
  · rfl

theorem rewriteStep_getD_eq (sha256 : Bytes → Digest) (site label : Bytes)
    (first modulus : Int) (fire : Prop) [Decidable fire] (b : Bytes)
    (hf : fire) (hb : 0 < b.length) :
    (rewriteStep sha256 site label first modulus fire b).getD
        (pickIndex sha256 site b.length label) 0
      = rewriteByte first modulus (b.getD (pickIndex sha256 site b.length label) 0) := by
  unfold rewriteStep
  rw [if_pos ⟨hf, hb⟩]
  exact getD_set_eq _ _ _ (pickIndex_lt _ _ _ _ hb)

theorem specialStep_getD_ne (sha256 : Bytes → Digest) (site sc : Bytes)
    (fire : Prop) [Decidable fire] (b : Bytes) (k : Nat)
    (h : k ≠ pickIndex sha256 site b.length (bytesOf "special")) :
    (specialStep sha256 site sc fire b).getD k 0 = b.getD k 0 := by
  unfold specialStep
  split_ifs
  · exact getD_set_ne _ _ _ _ h
  · rfl

theorem specialStep_getD_eq (sha256 : Bytes → Digest) (site sc : Bytes)
    (fire : Prop) [Decidable fire] (b : Bytes)
    (hf : fire) (hb : 0 < b.length) (hsc : 0 < sc.length) :
    (specialStep sha256 site sc fire b).getD
        (pickIndex sha256 site b.length (bytesOf "special")) 0
      = sc.getD ((sha256 (site ++ bytesOf "|special_char") 1).val % sc.length) 0 := by
  unfold specialStep
  rw [if_pos ⟨hf, hb, hsc⟩]
  exact getD_set_eq _ _ _ (pickIndex_lt _ _ _ _ hb)

theorem enforced_length (sha256 : Bytes → Digest) (s : Bytes) (p : SitePolicy) :
    (enforced sha256 s p).length = s.length := by
  unfold enforced
  simp only [specialStep_length, rewriteStep_length]

/-- A position that no step picks keeps its byte. -/
theorem enforced_getD_of_not_picked (sha256 : Bytes → Digest) (s : Bytes) (p : SitePolicy)
    (k : Nat) (hk : k ∉ pickedIndices sha256 p.Site s.length) :
    (enforced sha256 s p).getD k 0 = s.getD k 0 := by
  simp only [pickedIndices, List.mem_cons, List.mem_singleton, List.not_mem_nil, or_false,
    not_or] at hk
  obtain ⟨hu, hl, hd, hs⟩ := hk
  unfold enforced
  simp only []
  rw [specialStep_getD_ne _ _ _ _ _ _ (by simpa only [rewriteStep_length] using hs),
    rewriteStep_getD_ne _ _ _ _ _ _ _ _ (by simpa only [rewriteStep_length] using hd),
    rewriteStep_getD_ne _ _ _ _ _ _ _ _ (by simpa only [rewriteStep_length] using hl),
    rewriteStep_getD_ne _ _ _ _ _ _ _ _ hu]

theorem exists_mem_of_getD (P : Nat → Prop) (h0 : ¬ P 0) (r : Bytes) (k : Nat)
    (h : P (r.getD k 0)) : ∃ c ∈ r, P c := by
  by_cases hk : k < r.length
  · refine ⟨r.getD k 0, ?_, h⟩
    rw [List.getD_eq_getElem _ _ hk]
    exact List.getElem_mem _
  · rw [List.getD_eq_default _ _ (by omega)] at h
    exact absurd h h0

theorem pickedIndices_pos (sha256 : Bytes → Digest) (site : Bytes) (n : Nat)
    (h : (pickedIndices sha256 site n).Nodup) : 0 < n := by
  by_contra hn
  have h0 : n = 0 := by omega
  subst h0
  simp [pickedIndices, pickIndex] at h

theorem pickIndex_one (sha256 : Bytes → Digest) (site label : Bytes) :
    pickIndex sha256 site 1 label = 0 := by
  simp [pickIndex, Nat.mod_one]

theorem rewriteStep_singleton (sha256 : Bytes → Digest) (site label : Bytes)
    (first modulus : Int) (fire : Prop) [Decidable fire] (x : Nat) :
    rewriteStep sha256 site label first modulus fire [x]
      = if fire then [rewriteByte first modulus x] else [x] := by
  unfold rewriteStep
  simp only [List.length_singleton, pickIndex_one]
  by_cases hf : fire
  · rw [if_pos ⟨hf, by decide⟩, if_pos hf]
    rfl
  · rw [if_neg (fun h => hf h.1), if_neg hf]

theorem specialStep_singleton (sha256 : Bytes → Digest) (site : Bytes)
    (fire : Prop) [Decidable fire] (x y : Nat) :
    specialStep sha256 site [y] fire [x] = if fire then [y] else [x] := by
  unfold specialStep
  simp only [List.length_singleton, pickIndex_one, Nat.mod_one]
  by_cases hf : fire
  · rw [if_pos ⟨hf, by decide, by decide⟩, if_pos hf]
    rfl
  · rw [if_neg (fun h => hf h.1), if_neg hf]

/-- On a one-character string every step picks position 0, whatever the digest
function is: with the four flags set and the one special character `!`, the
string "a" becomes "!". -/
theorem applyPolicy_single_char (sha256 : Bytes → Digest) :
    applyPolicy sha256 (bytesOf "a")
      ⟨bytesOf "example.com", 0, true, true, true, true, bytesOf "!"⟩ = .ok (bytesOf "!") := by
  rw [applyPolicy_eq_enforced]
  have hs : bytesOf "a" = [97] := by decide
  have hb : bytesOf "!" = [33] := by decide
  have hc : classify [97] = ⟨false, true, false, false⟩ := by decide
  unfold enforced
  simp only [hs, hb, hc]
  rw [rewriteStep_singleton, if_pos (by decide), rewriteStep_singleton, if_neg (by decide),
    rewriteStep_singleton, if_pos (by decide), specialStep_singleton, if_pos (by decide)]

/-- Counterexample to C10 as stated: the non-empty string "a", under a policy
with the four requirement flags set and the non-empty `SpecialChars` "!", is
turned into "!" (every step picks position 0 of a one-character string, and
the last write wins), which holds no uppercase letter, no lowercase letter
and no digit. -/
theorem applyPolicy_all_classes_counterexample :
    bytesOf "a" ≠ [] ∧
      applyPolicy toyDigest (bytesOf "a")
        ⟨bytesOf "example.com", 0, true, true, true, true, bytesOf "!"⟩ = .ok (bytesOf "!") ∧
      ¬ (∃ c ∈ bytesOf "!", isUpper c) ∧ ¬ (∃ c ∈ bytesOf "!", isLower c) ∧
      ¬ (∃ c ∈ bytesOf "!", isDigit c) :=
  ⟨by decide, by decide, by decide, by decide, by decide⟩

/-! ## The enforcer, step by step -/

theorem rewriteStep_of_not (sha256 : Bytes → Digest) (site label : Bytes)
    (first modulus : Int) (fire : Prop) [Decidable fire] (b : Bytes) (h : ¬ fire) :
    rewriteStep sha256 site label first modulus fire b = b := by
  unfold rewriteStep
  rw [if_neg (fun hf => h hf.1)]

theorem specialStep_of_not (sha256 : Bytes → Digest) (site sc : Bytes)
    (fire : Prop) [Decidable fire] (b : Bytes) (h : ¬ (fire ∧ sc.length > 0)) :
    specialStep sha256 site sc fire b = b := by
  unfold specialStep
  rw [if_neg (fun hf => h ⟨hf.1, hf.2.2⟩)]

/-- When every class that the policy requires is found in `s`, no step fires. -/
theorem enforced_of_satisfied (sha256 : Bytes → Digest) (s : Bytes) (p : SitePolicy)
    (hU : p.RequireUpper = true → ∃ c ∈ s, isUpper c)
    (hL : p.RequireLower = true → ∃ c ∈ s, isLower c)
    (hD : p.RequireDigit = true → ∃ c ∈ s, isDigit c)
    (hS : p.RequireSpecial = true → ∃ c ∈ s, ¬ isAlnum c) :
    enforced sha256 s p = s := by
  unfold enforced
  simp only []
  rw [rewriteStep_of_not _ _ _ _ _ _ s (fun h => h.2 ((classify_hasUpper s).mpr (hU h.1))),
    rewriteStep_of_not _ _ _ _ _ _ s (fun h => h.2 ((classify_hasLower s).mpr (hL h.1))),
    rewriteStep_of_not _ _ _ _ _ _ s (fun h => h.2 ((classify_hasDigit s).mpr (hD h.1))),
    specialStep_of_not _ _ _ _ s (fun h => h.1.2 ((classify_hasSpecial s).mpr (hS h.1.1)))]

theorem runStep_rewrite (sha256 : Bytes → Digest) (site label : Bytes) (first modulus : Int)
    (c1 c2 : Prop) [Decidable c1] [Decidable c2] (n : Nat) (b : Bytes) (hb : b.length = n) :
    runStep b ⟨decide (c1 ∧ c2 ∧ n > 0), pickIndex sha256 site n label,
        rewriteByte first modulus⟩
      = rewriteStep sha256 site label first modulus (c1 ∧ c2) b := by
  unfold runStep rewriteStep
  subst hb
  by_cases h : c1 ∧ c2 ∧ b.length > 0
  · rw [if_pos (by simpa using h), if_pos ⟨⟨h.1, h.2.1⟩, h.2.2⟩]
  · rw [if_neg (by simpa using h), if_neg (fun hf => h ⟨hf.1.1, hf.1.2, hf.2⟩)]

theorem runStep_special (sha256 : Bytes → Digest) (site sc : Bytes)
    (c1 c2 : Prop) [Decidable c1] [Decidable c2] (n : Nat) (b : Bytes) (hb : b.length = n) :
    runStep b ⟨decide (c1 ∧ c2 ∧ n > 0 ∧ sc.length > 0),
        pickIndex sha256 site n (bytesOf "special"),
        fun _ => sc.getD ((sha256 (site ++ bytesOf "|special_char") 1).val % sc.length) 0⟩
      = specialStep sha256 site sc (c1 ∧ c2) b := by
  unfold runStep specialStep
  subst hb
  by_cases h : c1 ∧ c2 ∧ b.length > 0 ∧ sc.length > 0
  · rw [if_pos (by simpa using h), if_pos ⟨⟨h.1, h.2.1⟩, h.2.2.1, h.2.2.2⟩]
  · rw [if_neg (by simpa using h), if_neg (fun hf => h ⟨hf.1.1, hf.1.2, hf.2.1, hf.2.2⟩)]

/-- The string `applyPolicy` returns is the result of running its four steps
in order. -/
theorem enforced_eq_runSteps (sha256 : Bytes → Digest) (s : Bytes) (p : SitePolicy) :
    enforced sha256 s p = runSteps (policySteps sha256 s p) s := by
  unfold enforced runSteps policySteps
  simp only [List.foldl_cons, List.foldl_nil]
  rw [runStep_rewrite sha256 p.Site (bytesOf "upper") 65 26 _ _ s.length s rfl,
    runStep_rewrite sha256 p.Site (bytesOf "lower") 97 26 _ _ s.length _
      (by rw [rewriteStep_length]),
    runStep_rewrite sha256 p.Site (bytesOf "digit") 48 10 _ _ s.length _
      (by simp only [rewriteStep_length]),
    runStep_special sha256 p.Site p.SpecialChars _ _ s.length _
      (by simp only [rewriteStep_length])]

theorem runStep_length (b : Bytes) (st : Step) : (runStep b st).length = b.length := by
  unfold runStep
  split_ifs <;> simp

/-- The byte at position `k` after a run of steps: the writes of the firing
steps that picked `k`, applied in order to the byte that was there. -/
theorem runSteps_getD (steps : List Step) : ∀ (b : Bytes) (k : Nat), k < b.length →
    (runSteps steps b).getD k 0
      = ((steps.filter (fun st => st.fires && decide (st.index = k))).foldl
          (fun c st => st.write c) (b.getD k 0)) := by
  induction steps with
  | nil => intro b k _; rfl
  | cons st steps ih =>
    intro b k hk
    have hk' : k < (runStep b st).length := by rw [runStep_length]; exact hk
    show (runSteps steps (runStep b st)).getD k 0 = _
    rw [ih (runStep b st) k hk']
    by_cases hf : st.fires = true ∧ st.index = k
    · have hfilter : (st :: steps).filter (fun st => st.fires && decide (st.index = k))
          = st :: steps.filter (fun st => st.fires && decide (st.index = k)) := by
        rw [List.filter_cons_of_pos]
        simp [hf.1, hf.2]
      rw [hfilter, List.foldl_cons]
      have : (runStep b st).getD k 0 = st.write (b.getD k 0) := by
        unfold runStep
        rw [if_pos hf.1, hf.2]
        exact getD_set_eq _ _ _ hk
      rw [this]
    · have hfilter : (st :: steps).filter (fun st => st.fires && decide (st.index = k))
          = steps.filter (fun st => st.fires && decide (st.index = k)) := by
        rw [List.filter_cons_of_neg]
        simpa using hf
      rw [hfilter]
      have : (runStep b st).getD k 0 = b.getD k 0 := by
        unfold runStep
        by_cases hfire : st.fires = true
        · rw [if_pos hfire]
          exact getD_set_ne _ _ _ _ (fun h => hf ⟨hfire, h.symm⟩)
        · rw [if_neg hfire]
      rw [this]

/-- Counterexample to C11 as stated: under a policy with the four flags set and
`SpecialChars` "!", `applyPolicy` turns "a" into "!" and, run again on its own
output, turns "!" into "0": the first output holds no uppercase letter,
lowercase letter or digit, so the second run overwrites again. Every step
picks position 0 of a one-character string, whatever the digest function is. -/
theorem applyPolicy_not_idempotent :
    applyPolicy toyDigest (bytesOf "a")
        ⟨bytesOf "example.com", 0, true, true, true, true, bytesOf "!"⟩ = .ok (bytesOf "!") ∧
      applyPolicy toyDigest (bytesOf "!")
        ⟨bytesOf "example.com", 0, true, true, true, true, bytesOf "!"⟩ = .ok (bytesOf "0") ∧
      bytesOf "0" ≠ bytesOf "!" :=
  ⟨by decide, by decide, by decide⟩

/-- C11, amended: when the string `r` that `applyPolicy` returns on `s` holds,
for each requirement flag set in the policy, a character of that class
(special: any byte outside `[A-Za-z0-9]`), running `applyPolicy` on `r` with
the same policy returns `r` again, the result of the first run: no further
overwrite. -/
theorem applyPolicy_idempotent_of_satisfied (sha256 : Bytes → Digest) (s r : Bytes)
    (p : SitePolicy) (hr : applyPolicy sha256 s p = .ok r)
    (hU : p.RequireUpper = true → ∃ c ∈ r, isUpper c)
    (hL : p.RequireLower = true → ∃ c ∈ r, isLower c)
    (hD : p.RequireDigit = true → ∃ c ∈ r, isDigit c)
    (hS : p.RequireSpecial = true → ∃ c ∈ r, ¬ isAlnum c) :
    applyPolicy sha256 r p = applyPolicy sha256 s p := by
  rw [hr, applyPolicy_eq_enforced, enforced_of_satisfied sha256 r p hU hL hD hS]

/-- Witness of C11, amended: "abcdefghijklmnopqrst" under the four flags becomes
"abc*efghIjk1mnopqrst", which holds the four classes and is left as it is. -/
theorem applyPolicy_idempotent_of_satisfied_witness :
    applyPolicy toyDigest (bytesOf "abcdefghijklmnopqrst")
        ⟨bytesOf "example.com", 20, true, true, true, true, bytesOf "!@#$%^&*"⟩
        = .ok (bytesOf "abc*efghIjk1mnopqrst") ∧
      applyPolicy toyDigest (bytesOf "abc*efghIjk1mnopqrst")
        ⟨bytesOf "example.com", 20, true, true, true, true, bytesOf "!@#$%^&*"⟩
        = applyPolicy toyDigest (bytesOf "abcdefghijklmnopqrst")
          ⟨bytesOf "example.com", 20, true, true, true, true, bytesOf "!@#$%^&*"⟩ :=
  ⟨by decide, applyPolicy_idempotent_of_satisfied toyDigest (bytesOf "abcdefghijklmnopqrst")
    (bytesOf "abc*efghIjk1mnopqrst")
    ⟨bytesOf "example.com", 20, true, true, true, true, bytesOf "!@#$%^&*"⟩
    (by decide) (by decide) (by decide) (by decide) (by decide)⟩

/-- C12: when, for each requirement flag set in the policy, `s` already holds a
character of that class (uppercase, lowercase, digit; special is any other
byte), `applyPolicy` returns `s` unchanged; and a policy with the four flags
false leaves every string unchanged. -/
theorem applyPolicy_unchanged_of_satisfied (sha256 : Bytes → Digest) (s : Bytes)
    (p : SitePolicy)
    (hU : p.RequireUpper = true → ∃ c ∈ s, isUpper c)
    (hL : p.RequireLower = true → ∃ c ∈ s, isLower c)
    (hD : p.RequireDigit = true → ∃ c ∈ s, isDigit c)
    (hS : p.RequireSpecial = true → ∃ c ∈ s, ¬ isAlnum c) :
    applyPolicy sha256 s p = .ok s ∧
      ∀ (t site sc : Bytes) (maxLen : Int),
        applyPolicy sha256 t ⟨site, maxLen, false, false, false, false, sc⟩ = .ok t := by
  constructor
  · rw [applyPolicy_eq_enforced, enforced_of_satisfied sha256 s p hU hL hD hS]
  · intro t site sc maxLen
    rw [applyPolicy_eq_enforced, enforced_of_satisfied sha256 t _
      (fun h => by cases h) (fun h => by cases h) (fun h => by cases h) (fun h => by cases h)]

/-- Witness of C12: "Ab1" under a policy that requires uppercase, lowercase and
digit. -/
theorem applyPolicy_unchanged_of_satisfied_witness :
    applyPolicy toyDigest (bytesOf "Ab1")
      ⟨bytesOf "example.com", 0, true, true, true, false, bytesOf "!@#$%^&*"⟩
      = .ok (bytesOf "Ab1") :=
  (applyPolicy_unchanged_of_satisfied toyDigest (bytesOf "Ab1")
    ⟨bytesOf "example.com", 0, true, true, true, false, bytesOf "!@#$%^&*"⟩
    (by decide) (by decide) (by decide) (by decide)).1

/-- C13: `applyPolicy` runs its steps in the order upper, lower, digit,
special, each on the string the step before it left. The byte it returns at a
position `k` is the result of applying to the input byte, in that order, the
writes of the firing steps that picked `k`: among steps that collide on `k`
the last one decides the output, and an upper, lower or digit step derives its
byte from the alphabet index of the byte the step before it wrote. The
special step, when it fires, leaves
`SpecialChars[SHA-256(site|special_char)[1] mod len(SpecialChars)]` at its
position. -/
theorem applyPolicy_sequential (sha256 : Bytes → Digest) (s : Bytes) (p : SitePolicy)
    (k : Nat) (hk : k < s.length) :
    ∃ r, applyPolicy sha256 s p = .ok r ∧
      r = runSteps (policySteps sha256 s p) s ∧
      r.getD k 0
        = ((policySteps sha256 s p).filter (fun st => st.fires && decide (st.index = k))).foldl
            (fun c st => st.write c) (s.getD k 0) ∧
      (p.RequireSpecial = true → (∀ c ∈ s, isAlnum c) → p.SpecialChars ≠ [] →
        r.getD (pickIndex sha256 p.Site s.length (bytesOf "special")) 0
          = p.SpecialChars.getD
              ((sha256 (p.Site ++ bytesOf "|special_char") 1).val % p.SpecialChars.length) 0) := by
  refine ⟨enforced sha256 s p, applyPolicy_eq_enforced sha256 s p,
    enforced_eq_runSteps sha256 s p, ?_, ?_⟩
  · rw [enforced_eq_runSteps]
    exact runSteps_getD _ s k hk
  · intro hreq halnum hsc
    have hn : 0 < s.length := by omega
    have hnoSpecial : ¬ (classify s).hasSpecial = true := by
      rw [classify_hasSpecial]
      rintro ⟨x, hx, hnx⟩
      exact hnx (halnum x hx)
    have h1 := specialStep_getD_eq sha256 p.Site p.SpecialChars
      (p.RequireSpecial = true ∧ ¬ (classify s).hasSpecial = true)
      (rewriteStep sha256 p.Site (bytesOf "digit") 48 10
        (p.RequireDigit = true ∧ ¬ (classify s).hasDigit = true)
        (rewriteStep sha256 p.Site (bytesOf "lower") 97 26
          (p.RequireLower = true ∧ ¬ (classify s).hasLower = true)
          (rewriteStep sha256 p.Site (bytesOf "upper") 65 26
            (p.RequireUpper = true ∧ ¬ (classify s).hasUpper = true) s)))
      ⟨hreq, hnoSpecial⟩ (by simp only [rewriteStep_length]; exact hn)
      (List.length_pos.mpr hsc)
    simp only [rewriteStep_length] at h1
    exact h1

/-- Witness of C13: in "AAAA" the lower and the digit step both pick position 3;
the lower step turns `A` (index 26) into `a`, the digit step reads that `a`
(index 0) and leaves `0`, not the `6` that `A` itself would give. -/
theorem applyPolicy_sequential_witness :
    pickedIndices toyDigest (bytesOf "example.com") 4 = [0, 3, 3, 3] ∧
      ∃ r, applyPolicy toyDigest (bytesOf "AAAA")
          ⟨bytesOf "example.com", 0, true, true, true, false, bytesOf "!"⟩ = .ok r ∧
        r.getD 3 0 = rewriteByte 48 10 (rewriteByte 97 26 65) ∧ r.getD 3 0 = 48 :=
  ⟨by decide,
    let ⟨r, h, _, hget, _⟩ := applyPolicy_sequential toyDigest (bytesOf "AAAA")
      ⟨bytesOf "example.com", 0, true, true, true, false, bytesOf "!"⟩ 3 (by decide)
    ⟨r, h, hget.trans (by decide), hget.trans (by decide)⟩⟩

/-- C14: enforcement skips and does not fail: on the empty string
`applyPolicy` returns the empty string for every policy, and with an empty
`SpecialChars` it returns, for every string, what it returns with
`RequireSpecial` set to false. -/
theorem applyPolicy_skips (sha256 : Bytes → Digest) (s : Bytes) (p : SitePolicy) :
    applyPolicy sha256 [] p = .ok [] ∧
      ∃ r, applyPolicy sha256 s { p with SpecialChars := [] } = .ok r ∧
        applyPolicy sha256 s { p with SpecialChars := [], RequireSpecial := false } = .ok r := by
  constructor
  · have hnil : enforced sha256 [] p = [] :=
      List.length_eq_zero.mp (by simpa using enforced_length sha256 [] p)
    rw [applyPolicy_eq_enforced, hnil]
  · refine ⟨enforced sha256 s { p with SpecialChars := [] }, applyPolicy_eq_enforced _ _ _, ?_⟩
    rw [applyPolicy_eq_enforced]
    unfold enforced
    simp only []
    rw [specialStep_of_not _ _ _ _ _ (by simp), specialStep_of_not _ _ _ _ _ (by simp)]

/-- When the special step fires it leaves the picked special character at its
position: no step runs after it. -/
theorem enforced_special_getD (sha256 : Bytes → Digest) (s : Bytes) (p : SitePolicy)
    (hreq : p.RequireSpecial = true) (hno : ¬ ∃ c ∈ s, ¬ isAlnum c) (hsc : p.SpecialChars ≠ [])
    (hn : 0 < s.length) :
    (enforced sha256 s p).getD (pickIndex sha256 p.Site s.length (bytesOf "special")) 0
      = p.SpecialChars.getD
          ((sha256 (p.Site ++ bytesOf "|special_char") 1).val % p.SpecialChars.length) 0 := by
  have hnoSpecial : ¬ (classify s).hasSpecial = true := by
    rw [classify_hasSpecial]
    exact hno
  have h1 := specialStep_getD_eq sha256 p.Site p.SpecialChars
    (p.RequireSpecial = true ∧ ¬ (classify s).hasSpecial = true)
    (rewriteStep sha256 p.Site (bytesOf "digit") 48 10
      (p.RequireDigit = true ∧ ¬ (classify s).hasDigit = true)
      (rewriteStep sha256 p.Site (bytesOf "lower") 97 26
        (p.RequireLower = true ∧ ¬ (classify s).hasLower = true)
        (rewriteStep sha256 p.Site (bytesOf "upper") 65 26
          (p.RequireUpper = true ∧ ¬ (classify s).hasUpper = true) s)))
    ⟨hreq, hnoSpecial⟩ (by simp only [rewriteStep_length]; exact hn)
    (List.length_pos.mpr hsc)
  simp only [rewriteStep_length] at h1
  exact h1

theorem mem_of_getD_lt (r : Bytes) (k : Nat) (h : k < r.length) : r.getD k 0 ∈ r := by
  rw [List.getD_eq_getElem _ _ h]
  exact List.getElem_mem _

/-- C15: the choices of the enforcer depend on the site and the fixed labels
only. For two strings of the same non-zero length the four steps pick the same
positions `SHA-256(Site|label)[0] mod len`, in both runs the special step, when
it fires, writes the same character
`SpecialChars[SHA-256(Site|special_char)[1] mod len(SpecialChars)]`, and two
runs on the same string and policy return the same value. -/
theorem applyPolicy_choices_from_site (sha256 : Bytes → Digest) (s1 s2 : Bytes)
    (p : SitePolicy) (hlen : s1.length = s2.length) (hpos : 0 < s1.length) :
    applyPolicy sha256 s1 p = .ok (runSteps (policySteps sha256 s1 p) s1) ∧
      applyPolicy sha256 s2 p = .ok (runSteps (policySteps sha256 s2 p) s2) ∧
      (policySteps sha256 s1 p).map Step.index = pickedIndices sha256 p.Site s1.length ∧
      (policySteps sha256 s2 p).map Step.index = pickedIndices sha256 p.Site s1.length ∧
      (∀ label, pickIndex sha256 p.Site s1.length label
        = (sha256 (p.Site ++ bytesOf "|" ++ label) 0).val % s1.length) ∧
      (p.RequireSpecial = true → p.SpecialChars ≠ [] →
        (¬ ∃ c ∈ s1, ¬ isAlnum c) → (¬ ∃ c ∈ s2, ¬ isAlnum c) →
        ∃ r1 r2, applyPolicy sha256 s1 p = .ok r1 ∧ applyPolicy sha256 s2 p = .ok r2 ∧
          r1.getD (pickIndex sha256 p.Site s1.length (bytesOf "special")) 0
            = p.SpecialChars.getD
              ((sha256 (p.Site ++ bytesOf "|special_char") 1).val % p.SpecialChars.length) 0 ∧
          r2.getD (pickIndex sha256 p.Site s1.length (bytesOf "special")) 0
            = p.SpecialChars.getD
              ((sha256 (p.Site ++ bytesOf "|special_char") 1).val % p.SpecialChars.length) 0) ∧
      (s1 = s2 → applyPolicy sha256 s1 p = applyPolicy sha256 s2 p) := by
  refine ⟨?_, ?_, rfl, ?_, ?_, ?_, ?_⟩
  · rw [applyPolicy_eq_enforced, enforced_eq_runSteps]
  · rw [applyPolicy_eq_enforced, enforced_eq_runSteps]
  · rw [hlen]; rfl
  · intro label
    unfold pickIndex
    rw [if_neg (by omega)]
  · intro hreq hsc h1 h2
    refine ⟨_, _, applyPolicy_eq_enforced sha256 s1 p, applyPolicy_eq_enforced sha256 s2 p,
      enforced_special_getD sha256 s1 p hreq h1 hsc hpos, ?_⟩
    rw [hlen]
    exact enforced_special_getD sha256 s2 p hreq h2 hsc (by omega)
  · intro h
    rw [h]

/-- Witness of C15 at "abcdefghijkl" and "ABCDEFGHIJKL". -/
theorem applyPolicy_choices_from_site_witness :
    (policySteps toyDigest (bytesOf "abcdefghijkl")
        ⟨bytesOf "example.com", 0, true, true, true, true, bytesOf "!@#$%^&*"⟩).map Step.index
      = (policySteps toyDigest (bytesOf "ABCDEFGHIJKL")
        ⟨bytesOf "example.com", 0, true, true, true, true, bytesOf "!@#$%^&*"⟩).map Step.index :=
  let h := applyPolicy_choices_from_site toyDigest (bytesOf "abcdefghijkl")
    (bytesOf "ABCDEFGHIJKL")
    ⟨bytesOf "example.com", 0, true, true, true, true, bytesOf "!@#$%^&*"⟩
    (by decide) (by decide)
  h.2.2.1.trans h.2.2.2.1.symm

/-- Counterexample to C16 as stated: `applyPolicy` does not substitute the
default set. On "a", under a policy with `RequireSpecial` set and an empty
`SpecialChars`, it skips the special step and returns "a", which holds no
character of the default set. -/
theorem applyPolicy_no_default_substitution :
    bytesOf "a" ≠ [] ∧ (¬ ∃ c ∈ bytesOf "a", ¬ isAlnum c) ∧
      applyPolicy toyDigest (bytesOf "a")
        ⟨bytesOf "example.com", 0, false, false, false, true, []⟩ = .ok (bytesOf "a") ∧
      ¬ ∃ c ∈ bytesOf "a", c ∈ bytesOf "!@#$%^&*" :=
  ⟨by decide, by decide, by decide, by decide⟩

/-- C16, amended: it is `loadSitePolicy` that substitutes the default set. A
policy it returns never has an empty `SpecialChars`, and has the default set
`!@#$%^&*` when the file left `SpecialChars` empty; for every non-empty
string without special character and every loaded policy with `RequireSpecial`
set, `applyPolicy` returns a string with a character of the policy's
`SpecialChars`. -/
theorem loadSitePolicy_default_special (lib : StringLib) (sha256 : Bytes → Digest)
    (lines : List Bytes) (site s : Bytes) (p : SitePolicy)
    (hload : loadSitePolicy lib (some lines) site = some p)
    (hs : s ≠ []) (hno : ¬ ∃ c ∈ s, ¬ isAlnum c) (hreq : p.RequireSpecial = true) :
    p.SpecialChars ≠ [] ∧
      ((scanPolicy lib lines site).SpecialChars = [] → p.SpecialChars = bytesOf "!@#$%^&*") ∧
      ∃ r, applyPolicy sha256 s p = .ok r ∧ ∃ c ∈ r, c ∈ p.SpecialChars := by
  have hp : p = if (scanPolicy lib lines site).SpecialChars = [] then
      { scanPolicy lib lines site with SpecialChars := bytesOf "!@#$%^&*" }
      else scanPolicy lib lines site := by
    simp only [loadSitePolicy, Option.some.injEq] at hload
    exact hload.symm
  have hne : p.SpecialChars ≠ [] := by
    rw [hp]
    split_ifs with h
    · show bytesOf "!@#$%^&*" ≠ []
      decide
    · exact h
  have hn : 0 < s.length := List.length_pos.mpr hs
  refine ⟨hne, ?_, enforced sha256 s p, applyPolicy_eq_enforced sha256 s p, ?_⟩
  · intro h
    rw [hp, if_pos h]
  · refine ⟨_, mem_of_getD_lt _ (pickIndex sha256 p.Site s.length (bytesOf "special"))
      (by rw [enforced_length]; exact pickIndex_lt _ _ _ _ hn), ?_⟩
    rw [enforced_special_getD sha256 s p hreq hno hne hn]
    exact mem_of_getD_lt _ _ (Nat.mod_lt _ (List.length_pos.mpr hne))

/-- Witness of C16, amended: the file "special=yes", "special_chars=" and the
string "a". -/
theorem loadSitePolicy_default_special_witness :
    loadSitePolicy toyLib (some [bytesOf "special=yes", bytesOf "special_chars="])
        (bytesOf "example.com")
      = some ⟨bytesOf "example.com", 0, false, false, false, true, bytesOf "!@#$%^&*"⟩ ∧
      ∃ r, applyPolicy toyDigest (bytesOf "a")
          ⟨bytesOf "example.com", 0, false, false, false, true, bytesOf "!@#$%^&*"⟩ = .ok r ∧
        ∃ c ∈ r, c ∈ bytesOf "!@#$%^&*" :=
  ⟨by decide, (loadSitePolicy_default_special toyLib toyDigest
    [bytesOf "special=yes", bytesOf "special_chars="] (bytesOf "example.com") (bytesOf "a")
    ⟨bytesOf "example.com", 0, false, false, false, true, bytesOf "!@#$%^&*"⟩
    (by decide) (by decide) (by decide) rfl).2.2⟩

/-- Counterexample to C17 as stated: the two bytes `0xC5 0x81` (the character
U+0141) with the digit type. The loop ranges over runes, so it writes at byte offset
0 only and the second byte stays 0, which is no digit; and `byte(0x141)` is
`A`, found in the alphabet at index 26, so the first byte is `6`, not the
`0` of index 0. -/
theorem normalizeSegmentByType_multibyte :
    normalizeSegmentByType [0xC5, 0x81] SegmentDigit = .ok [54, 0] ∧
      ¬ isDigit 0 ∧ 0xC5 ∉ base62Alphabet ∧ 0x81 ∉ base62Alphabet ∧
      decodeRune [0xC5, 0x81] = (0x141, 2) ∧ remapByte SegmentDigit 0 = 48 :=
  ⟨by decide, by decide, by decide, by decide, by decide, by decide⟩

theorem getElem?_eq_of_getD (r s : Bytes) (k : Nat) (hl : r.length = s.length)
    (h : r.getD k 0 = s.getD k 0) : r[k]? = s[k]? := by
  by_cases hk : k < s.length
  · have hk' : k < r.length := by omega
    rw [List.getD_eq_getElem _ _ hk', List.getD_eq_getElem _ _ hk] at h
    rw [List.getElem?_eq_getElem hk', List.getElem?_eq_getElem hk, h]
  · rw [List.getElem?_eq_none (by omega), List.getElem?_eq_none (by omega)]

/-- C18: `applyPolicy` keeps the length of the string and overwrites picked
positions only: every position that is none of the four indices
`SHA-256(Site|label)[0] mod len(s)` holds the byte it held in `s`, so that at
most four positions differ. -/
theorem applyPolicy_frame (sha256 : Bytes → Digest) (s : Bytes) (p : SitePolicy) :
    ∃ r, applyPolicy sha256 s p = .ok r ∧ r.length = s.length ∧
      (∀ k, k ∉ pickedIndices sha256 p.Site s.length → r[k]? = s[k]?) ∧
      ((List.range s.length).filter (fun k => decide (r[k]? ≠ s[k]?))).length ≤ 4 := by
  have hframe : ∀ k, k ∉ pickedIndices sha256 p.Site s.length →
      (enforced sha256 s p)[k]? = s[k]? := fun k hk =>
    getElem?_eq_of_getD _ _ k (enforced_length sha256 s p)
      (enforced_getD_of_not_picked sha256 s p k hk)
  refine ⟨enforced sha256 s p, applyPolicy_eq_enforced sha256 s p,
    enforced_length sha256 s p, hframe, ?_⟩
  have hnodup : ((List.range s.length).filter
      (fun k => decide ((enforced sha256 s p)[k]? ≠ s[k]?))).Nodup :=
    (List.nodup_range _).filter _
  have hsub : (List.range s.length).filter
      (fun k => decide ((enforced sha256 s p)[k]? ≠ s[k]?))
      ⊆ pickedIndices sha256 p.Site s.length := by
    intro k hk
    rw [List.mem_filter] at hk
    by_contra hnot
    have := hframe k hnot
    simp [this] at hk
  have := (hnodup.subperm hsub).length_le
  simpa [pickedIndices] using this

theorem ofDigits_inj_of_length (base : Nat) (hb : 0 < base) : ∀ (L1 L2 : List Nat),
    L1.length = L2.length → (∀ x ∈ L1, x < base) → (∀ x ∈ L2, x < base) →
    Nat.ofDigits base L1 = Nat.ofDigits base L2 → L1 = L2 := by
  intro L1
  induction L1 with
  | nil =>
    intro L2 hl _ _ _
    exact (List.length_eq_zero.mp hl.symm).symm
  | cons x L1 ih =>
    intro L2 hl h1 h2 h
    match L2, hl, h2, h with
    | y :: L2, hl, h2, h =>
      rw [Nat.ofDigits_cons, Nat.ofDigits_cons] at h
      have hx : x < base := h1 x (List.mem_cons_self _ _)
      have hy : y < base := h2 y (List.mem_cons_self _ _)
      have hmod : x = y := by
        have := congrArg (· % base) h
        simpa [Nat.add_mul_mod_self_left, Nat.mod_eq_of_lt hx, Nat.mod_eq_of_lt hy] using this
      subst hmod
      have htail : Nat.ofDigits base L1 = Nat.ofDigits base L2 := by
        have : base * Nat.ofDigits base L1 = base * Nat.ofDigits base L2 := by omega
        exact Nat.eq_of_mul_eq_mul_left hb this
      rw [ih L2 (by simpa using hl) (fun z hz => h1 z (List.mem_cons_of_mem _ hz))
        (fun z hz => h2 z (List.mem_cons_of_mem _ hz)) htail]

theorem SetBytes_eq_ofDigits (b : Bytes) : SetBytes b = Nat.ofDigits 256 b.reverse := by
  rw [SetBytes_eq_positional, ← positional_reverse_digits, List.reverse_reverse]

/-- The string `Encode` returns is a function of the integer value of its
non-empty input. -/
theorem Encode_of_SetBytes_eq (b1 b2 : Bytes) (h1 : b1 ≠ []) (h2 : b2 ≠ [])
    (h : SetBytes b1 = SetBytes b2) : Encode b1 = Encode b2 := by
  by_cases h0 : SetBytes b1 = 0
  · rw [Encode_of_zero b1 h1 h0, Encode_of_zero b2 h2 (h ▸ h0)]
  · rw [Encode_of_ne_zero b1 h0, Encode_of_ne_zero b2 (h ▸ h0), h]

/-- The integer value of a non-empty input, read back from the string `Encode`
returns. -/
theorem Encode_value (b : Bytes) (hb : b ≠ []) :
    ∃ s, Encode b = .ok s ∧ positional 62 (s.map alphabetIndex) = SetBytes b := by
  by_cases h : SetBytes b = 0
  · refine ⟨[97], Encode_of_zero b hb h, ?_⟩
    rw [h]
    decide
  · refine ⟨_, Encode_of_ne_zero b h, ?_⟩
    have hmap : (Nat.digits 62 (SetBytes b)).map (alphabetIndex ∘ digitChar)
        = Nat.digits 62 (SetBytes b) := by
      conv_rhs => rw [← List.map_id (Nat.digits 62 (SetBytes b))]
      apply List.map_congr_left
      intro d hd
      exact alphabetIndex_digitChar d (Nat.digits_lt_base (by decide) hd)
    rw [List.map_reverse, List.map_map, hmap, positional_reverse_digits, Nat.ofDigits_digits]

/-- C19: for non-empty byte sequences `Encode` returns the same string exactly
when the sequences denote the same big-endian integer; it is therefore
injective on sequences of bytes of equal length, and a leading zero byte does
not change the result. -/
theorem Encode_eq_iff_value (b1 b2 : Bytes) (h1 : b1 ≠ []) (h2 : b2 ≠ []) :
    (Encode b1 = Encode b2 ↔ positional 256 b1 = positional 256 b2) ∧
      (b1.length = b2.length → (∀ x ∈ b1, x < 256) → (∀ x ∈ b2, x < 256) →
        Encode b1 = Encode b2 → b1 = b2) ∧
      Encode (0 :: b1) = Encode b1 := by
  have hiff : Encode b1 = Encode b2 ↔ SetBytes b1 = SetBytes b2 := by
    constructor
    · intro h
      obtain ⟨s1, hs1, hv1⟩ := Encode_value b1 h1
      obtain ⟨s2, hs2, hv2⟩ := Encode_value b2 h2
      rw [hs1, hs2] at h
      cases h
      rw [← hv1, ← hv2]
    · exact Encode_of_SetBytes_eq b1 b2 h1 h2
  refine ⟨?_, ?_, ?_⟩
  · rw [← SetBytes_eq_positional, ← SetBytes_eq_positional]
    exact hiff
  · intro hl hb1 hb2 h
    have hv := hiff.mp h
    rw [SetBytes_eq_ofDigits, SetBytes_eq_ofDigits] at hv
    have := ofDigits_inj_of_length 256 (by decide) b1.reverse b2.reverse
      (by simp [hl]) (fun x hx => hb1 x (List.mem_reverse.mp hx))
      (fun x hx => hb2 x (List.mem_reverse.mp hx)) hv
    exact List.reverse_injective this
  · apply Encode_of_SetBytes_eq _ _ (by simp) h1
    simp [SetBytes]

/-- Witness of C19 at the bytes `0x01 0x00` and `0x00 0x01 0x00`. -/
theorem Encode_eq_iff_value_witness :
    ([1, 0] : Bytes) ≠ [] ∧ ([0, 1, 0] : Bytes) ≠ [] ∧
      (Encode [1, 0] = Encode [0, 1, 0] ↔ positional 256 [1, 0] = positional 256 [0, 1, 0]) ∧
      Encode [0, 1, 0] = Encode [1, 0] :=
  ⟨by decide, by decide, (Encode_eq_iff_value [1, 0] [0, 1, 0] (by decide) (by decide)).1,
    by decide⟩

/-- After an upper, lower or digit step the string holds a character of the
class of the step, when the step fires or the class was there before. -/
theorem rewriteStep_has_class (sha256 : Bytes → Digest) (site label : Bytes)
    (first modulus : Int) (fire : Prop) [Decidable fire] (b : Bytes) (P : Nat → Prop)
    (hP0 : ¬ P 0) (hw : ∀ o, P (rewriteByte first modulus o)) (hb : 0 < b.length)
    (h : ¬ fire → ∃ c ∈ b, P c) :
    ∃ c ∈ rewriteStep sha256 site label first modulus fire b, P c := by
  by_cases hf : fire
  · apply exists_mem_of_getD P hP0 _ (pickIndex sha256 site b.length label)
    rw [rewriteStep_getD_eq _ _ _ _ _ _ _ hf hb]
    exact hw _
  · rw [rewriteStep_of_not _ _ _ _ _ _ _ hf]
    exact h hf

/-- C20: a single requirement is met. For every non-empty string, under a
policy that sets exactly one of `RequireUpper`, `RequireLower`, `RequireDigit`
and not `RequireSpecial`, `applyPolicy` returns a string with a character of
the required class; under a policy that sets `RequireSpecial` only, with a
non-empty `SpecialChars`, it returns a string with a byte outside
`[A-Za-z0-9]` or with the selected character of `SpecialChars`. -/
theorem applyPolicy_single_requirement (sha256 : Bytes → Digest) (s : Bytes) (p : SitePolicy)
    (hs : s ≠ []) :
    ∃ r, applyPolicy sha256 s p = .ok r ∧
      (p.RequireUpper = true ∧ p.RequireLower = false ∧ p.RequireDigit = false
        ∧ p.RequireSpecial = false → ∃ c ∈ r, isUpper c) ∧
      (p.RequireUpper = false ∧ p.RequireLower = true ∧ p.RequireDigit = false
        ∧ p.RequireSpecial = false → ∃ c ∈ r, isLower c) ∧
      (p.RequireUpper = false ∧ p.RequireLower = false ∧ p.RequireDigit = true
        ∧ p.RequireSpecial = false → ∃ c ∈ r, isDigit c) ∧
      (p.RequireUpper = false ∧ p.RequireLower = false ∧ p.RequireDigit = false
        ∧ p.RequireSpecial = true ∧ p.SpecialChars ≠ [] →
        ∃ c ∈ r, ¬ isAlnum c ∨ c = p.SpecialChars.getD
          ((sha256 (p.Site ++ bytesOf "|special_char") 1).val % p.SpecialChars.length) 0) := by
  have hn : 0 < s.length := List.length_pos.mpr hs
  refine ⟨enforced sha256 s p, applyPolicy_eq_enforced sha256 s p, ?_, ?_, ?_, ?_⟩
  · rintro ⟨hU, hL, hD, hS⟩
    unfold enforced
    simp only []
    rw [specialStep_of_not _ _ _ _ _ (by simp [hS]), rewriteStep_of_not _ _ _ _ _ _ _ (by simp [hD]),
      rewriteStep_of_not _ _ _ _ _ _ _ (by simp [hL])]
    apply rewriteStep_has_class _ _ _ _ _ _ _ isUpper (by decide) rewriteByte_upper hn
    intro hnf
    apply (classify_hasUpper s).mp
    by_contra hc
    exact hnf ⟨hU, hc⟩
  · rintro ⟨hU, hL, hD, hS⟩
    unfold enforced
    simp only []
    rw [specialStep_of_not _ _ _ _ _ (by simp [hS]), rewriteStep_of_not _ _ _ _ _ _ _ (by simp [hD]),
      rewriteStep_of_not _ _ _ _ _ _ s (by simp [hU])]
    apply rewriteStep_has_class _ _ _ _ _ _ _ isLower (by decide) rewriteByte_lower hn
    intro hnf
    apply (classify_hasLower s).mp
    by_contra hc
    exact hnf ⟨hL, hc⟩
  · rintro ⟨hU, hL, hD, hS⟩
    unfold enforced
    simp only []
    rw [specialStep_of_not _ _ _ _ _ (by simp [hS]), rewriteStep_of_not _ _ _ _ _ _ s (by simp [hU]),
      rewriteStep_of_not _ _ _ _ _ _ s (by simp [hL])]
    apply rewriteStep_has_class _ _ _ _ _ _ _ isDigit (by decide) rewriteByte_digit hn
    intro hnf
    apply (classify_hasDigit s).mp
    by_contra hc
    exact hnf ⟨hD, hc⟩
  · rintro ⟨hU, hL, hD, hS, hsc⟩
    by_cases hc : ∃ c ∈ s, ¬ isAlnum c
    · obtain ⟨c, hcs, hca⟩ := hc
      have hsame : enforced sha256 s p = s :=
        enforced_of_satisfied sha256 s p (fun h => by rw [hU] at h; cases h)
          (fun h => by rw [hL] at h; cases h) (fun h => by rw [hD] at h; cases h)
          (fun _ => ⟨c, hcs, hca⟩)
      rw [hsame]
      exact ⟨c, hcs, Or.inl hca⟩
    · refine ⟨_, mem_of_getD_lt _ (pickIndex sha256 p.Site s.length (bytesOf "special"))
        (by rw [enforced_length]; exact pickIndex_lt _ _ _ _ hn), Or.inr ?_⟩
      exact enforced_special_getD sha256 s p hS hc hsc hn

/-- Witness of C20: "abcd" under a policy that requires a digit only. -/
theorem applyPolicy_single_requirement_witness :
    bytesOf "abcd" ≠ [] ∧
      ∃ r, applyPolicy toyDigest (bytesOf "abcd")
          ⟨bytesOf "example.com", 0, false, false, true, false, bytesOf "!"⟩ = .ok r ∧
        ∃ c ∈ r, isDigit c :=
  ⟨by decide,
    let ⟨r, h, _, _, hd, _⟩ := applyPolicy_single_requirement toyDigest (bytesOf "abcd")
      ⟨bytesOf "example.com", 0, false, false, true, false, bytesOf "!"⟩ (by decide)
    ⟨r, h, hd ⟨rfl, rfl, rfl, rfl⟩⟩⟩

/-! ## Which requirements the enforcer meets -/

theorem runSteps_length (steps : List Step) : ∀ b : Bytes,
    (runSteps steps b).length = b.length := by
  induction steps with
  | nil => intro b; rfl
  | cons st steps ih =>
    intro b
    show (runSteps steps (runStep b st)).length = b.length
    rw [ih, runStep_length]

theorem firedIndices_cons (st : Step) (steps : List Step) :
    firedIndices (st :: steps)
      = if st.fires = true then st.index :: firedIndices steps else firedIndices steps := by
  unfold firedIndices
  by_cases h : st.fires = true
  · rw [List.filter_cons_of_pos (by simpa using h), if_pos h, List.map_cons]
  · rw [List.filter_cons_of_neg (by simpa using h), if_neg h]

/-- A position that no firing step picks keeps its byte through a run of
steps. -/
theorem runSteps_getElem?_of_not_fired (steps : List Step) : ∀ (b : Bytes) (k : Nat),
    k ∉ firedIndices steps → (runSteps steps b)[k]? = b[k]? := by
  induction steps with
  | nil => intro b k _; rfl
  | cons st steps ih =>
    intro b k hk
    rw [firedIndices_cons] at hk
    show (runSteps steps (runStep b st))[k]? = b[k]?
    by_cases hf : st.fires = true
    · rw [if_pos hf] at hk
      rw [ih _ k (fun h => hk (List.mem_cons_of_mem _ h))]
      unfold runStep
      rw [if_pos hf, List.getElem?_set_ne (fun h => hk (by rw [← h]; exact List.mem_cons_self _ _))]
    · rw [if_neg hf] at hk
      rw [ih _ k hk]
      unfold runStep
      rw [if_neg hf]

/-- The write of a firing step stays in the result when no firing step after
it picks the same position. -/
theorem runSteps_fired_getElem? (pre post : List Step) (st : Step) (b : Bytes)
    (hf : st.fires = true) (hi : st.index < b.length) (hpost : st.index ∉ firedIndices post) :
    (runSteps (pre ++ st :: post) b)[st.index]?
      = some (st.write ((runSteps pre b).getD st.index 0)) := by
  have hrun : runSteps (pre ++ st :: post) b = runSteps post (runStep (runSteps pre b) st) := by
    simp [runSteps, List.foldl_append]
  rw [hrun, runSteps_getElem?_of_not_fired post _ _ hpost]
  unfold runStep
  rw [if_pos hf, List.getElem?_set_self (by rw [runSteps_length]; exact hi)]

theorem mem_of_getElem? (r : Bytes) (k c : Nat) (h : r[k]? = some c) : c ∈ r := by
  obtain ⟨hk, hc⟩ := List.getElem?_eq_some.mp h
  rw [← hc]
  exact List.getElem_mem _

/-- The four steps of a policy with the four flags set, on a non-empty string:
the upper, lower and digit step fire exactly when the class is absent. -/
theorem policySteps_all_flags (sha256 : Bytes → Digest) (s : Bytes) (p : SitePolicy)
    (hflags : p.RequireUpper = true ∧ p.RequireLower = true ∧ p.RequireDigit = true
      ∧ p.RequireSpecial = true) (hs : s ≠ []) :
    ∃ u l d sp : Step, policySteps sha256 s p = [u, l, d, sp] ∧
      (u.fires = true ↔ ¬ ∃ c ∈ s, isUpper c) ∧
      u.index = pickIndex sha256 p.Site s.length (bytesOf "upper") ∧
      u.write = rewriteByte 65 26 ∧
      (l.fires = true ↔ ¬ ∃ c ∈ s, isLower c) ∧
      l.index = pickIndex sha256 p.Site s.length (bytesOf "lower") ∧
      l.write = rewriteByte 97 26 ∧
      (d.fires = true ↔ ¬ ∃ c ∈ s, isDigit c) ∧
      d.index = pickIndex sha256 p.Site s.length (bytesOf "digit") ∧
      d.write = rewriteByte 48 10 := by
  obtain ⟨fU, fL, fD, _⟩ := hflags
  have hn : 0 < s.length := List.length_pos.mpr hs
  refine ⟨_, _, _, _, rfl, ?_, rfl, rfl, ?_, rfl, rfl, ?_, rfl, rfl⟩
  · simp only [decide_eq_true_eq, fU, hn, true_and, and_true, gt_iff_lt, ← classify_hasUpper]
  · simp only [decide_eq_true_eq, fL, hn, true_and, and_true, gt_iff_lt, ← classify_hasLower]
  · simp only [decide_eq_true_eq, fD, hn, true_and, and_true, gt_iff_lt, ← classify_hasDigit]

/-- C10, amended: for every non-empty string `s` and every policy with the
four requirement flags set and a non-empty `SpecialChars` (a step fires exactly
when its class is absent from `s`), `applyPolicy` returns a string that holds
a character of the class upper, lower or digit whenever either `s` holds no
character of the class and no step that fires after the step of the class
picks the same position, or `s` holds a character of the class at a position
that no firing step picks; and that holds a character of `SpecialChars`
whenever either `s` holds no special character (the special step fires, and
it is the last) or `s` holds a character of `SpecialChars` at a position that
no firing step picks. -/
theorem applyPolicy_all_classes (sha256 : Bytes → Digest) (s : Bytes) (p : SitePolicy)
    (hflags : p.RequireUpper = true ∧ p.RequireLower = true ∧ p.RequireDigit = true
      ∧ p.RequireSpecial = true)
    (hsc : p.SpecialChars ≠ []) (hs : s ≠ []) :
    ∃ r, applyPolicy sha256 s p = .ok r ∧
      ((((¬ ∃ c ∈ s, isUpper c) ∧ pickIndex sha256 p.Site s.length (bytesOf "upper")
            ∉ firedIndices ((policySteps sha256 s p).drop 1))
          ∨ ∃ k c, k ∉ firedIndices (policySteps sha256 s p) ∧ s[k]? = some c ∧ isUpper c)
        → ∃ c ∈ r, isUpper c) ∧
      ((((¬ ∃ c ∈ s, isLower c) ∧ pickIndex sha256 p.Site s.length (bytesOf "lower")
            ∉ firedIndices ((policySteps sha256 s p).drop 2))
          ∨ ∃ k c, k ∉ firedIndices (policySteps sha256 s p) ∧ s[k]? = some c ∧ isLower c)
        → ∃ c ∈ r, isLower c) ∧
      ((((¬ ∃ c ∈ s, isDigit c) ∧ pickIndex sha256 p.Site s.length (bytesOf "digit")
            ∉ firedIndices ((policySteps sha256 s p).drop 3))
          ∨ ∃ k c, k ∉ firedIndices (policySteps sha256 s p) ∧ s[k]? = some c ∧ isDigit c)
        → ∃ c ∈ r, isDigit c) ∧
      (((¬ ∃ c ∈ s, ¬ isAlnum c)
          ∨ ∃ k c, k ∉ firedIndices (policySteps sha256 s p) ∧ s[k]? = some c
              ∧ c ∈ p.SpecialChars)
        → ∃ c ∈ r, c ∈ p.SpecialChars) := by
  have hn : 0 < s.length := List.length_pos.mpr hs
  obtain ⟨u, l, d, sp, hsteps, huf, hui, huw, hlf, hli, hlw, hdf, hdi, hdw⟩ :=
    policySteps_all_flags sha256 s p hflags hs
  have hr : enforced sha256 s p = runSteps [u, l, d, sp] s := by
    rw [enforced_eq_runSteps, hsteps]
  have hkeep : ∀ (P : Nat → Prop), (∃ k c, k ∉ firedIndices (policySteps sha256 s p)
      ∧ s[k]? = some c ∧ P c) → ∃ c ∈ enforced sha256 s p, P c := by
    rintro P ⟨k, c, hk, hc, hP⟩
    refine ⟨c, mem_of_getElem? _ k c ?_, hP⟩
    rw [enforced_eq_runSteps, runSteps_getElem?_of_not_fired _ _ _ hk, hc]
  rw [hsteps] at *
  refine ⟨enforced sha256 s p, applyPolicy_eq_enforced sha256 s p, ?_, ?_, ?_, ?_⟩
  · rintro (⟨habs, hlater⟩ | hk)
    · have h := runSteps_fired_getElem? [] [l, d, sp] u s (huf.mpr habs)
        (by rw [hui]; exact pickIndex_lt _ _ _ _ hn) (by rw [hui]; exact hlater)
      refine ⟨_, mem_of_getElem? _ _ _ (hr ▸ h), ?_⟩
      rw [huw]
      exact rewriteByte_upper _
    · exact hkeep isUpper hk
  · rintro (⟨habs, hlater⟩ | hk)
    · have h := runSteps_fired_getElem? [u] [d, sp] l s (hlf.mpr habs)
        (by rw [hli]; exact pickIndex_lt _ _ _ _ hn) (by rw [hli]; exact hlater)
      refine ⟨_, mem_of_getElem? _ _ _ (hr ▸ h), ?_⟩
      rw [hlw]
      exact rewriteByte_lower _
    · exact hkeep isLower hk
  · rintro (⟨habs, hlater⟩ | hk)
    · have h := runSteps_fired_getElem? [u, l] [sp] d s (hdf.mpr habs)
        (by rw [hdi]; exact pickIndex_lt _ _ _ _ hn) (by rw [hdi]; exact hlater)
      refine ⟨_, mem_of_getElem? _ _ _ (hr ▸ h), ?_⟩
      rw [hdw]
      exact rewriteByte_digit _
    · exact hkeep isDigit hk
  · rintro (habs | hk)
    · refine ⟨_, mem_of_getD_lt _ (pickIndex sha256 p.Site s.length (bytesOf "special"))
        (by rw [enforced_length]; exact pickIndex_lt _ _ _ _ hn), ?_⟩
      rw [enforced_special_getD sha256 s p hflags.2.2.2 habs hsc hn]
      exact mem_of_getD_lt _ _ (Nat.mod_lt _ (List.length_pos.mpr hsc))
    · exact hkeep (fun c => c ∈ p.SpecialChars) hk

/-- Witness of C10, amended, at the string "Aa0b": the steps pick the positions
0, 3, 3, 3, only the special step fires, and the letters and the digit at
the positions 0, 1, 2 stay. -/
theorem applyPolicy_all_classes_witness :
    pickedIndices toyDigest (bytesOf "example.com") 4 = [0, 3, 3, 3] ∧
      ∃ r, applyPolicy toyDigest (bytesOf "Aa0b")
          ⟨bytesOf "example.com", 0, true, true, true, true, bytesOf "!@#$%^&*"⟩ = .ok r ∧
        (∃ c ∈ r, isUpper c) ∧ (∃ c ∈ r, isLower c) ∧ (∃ c ∈ r, isDigit c) ∧
        (∃ c ∈ r, c ∈ bytesOf "!@#$%^&*") :=
  ⟨by decide,
    let ⟨r, h, hU, hL, hD, hS⟩ := applyPolicy_all_classes toyDigest (bytesOf "Aa0b")
      ⟨bytesOf "example.com", 0, true, true, true, true, bytesOf "!@#$%^&*"⟩
      ⟨rfl, rfl, rfl, rfl⟩ (by decide) (by decide)
    ⟨r, h, hU (Or.inr ⟨0, 65, by decide, by decide, by decide⟩),
      hL (Or.inr ⟨1, 97, by decide, by decide, by decide⟩),
      hD (Or.inr ⟨2, 48, by decide, by decide, by decide⟩),
      hS (Or.inl (by decide))⟩⟩

theorem remapByte_segmentClass (t c : Nat)
    (ht : t = SegmentUpper ∨ t = SegmentLower ∨ t = SegmentDigit) :
    segmentClass t (remapByte t c) := by
  rcases ht with rfl | rfl | rfl
  · exact rewriteByte_upper c
  · exact rewriteByte_lower c
  · exact rewriteByte_digit c

theorem remapByte_of_absent (t c : Nat) (hc : c ∉ base62Alphabet) :
    remapByte t c = segmentFirst t := by
  have hidx : IndexByte base62Alphabet c = -1 := by
    unfold IndexByte
    rw [if_neg hc]
  unfold remapByte segmentFirst
  simp only [hidx]
  split_ifs <;> rfl

/-- C17, amended: for every string and every segment type among upper, lower,
digit, `normalizeSegmentByType` returns a string of the same length; when the
string consists of ASCII bytes (below `0x80`, as the base62 text of the
pipeline does), every byte of the result lies in the class of the type, the
byte at each position is the replacement of the byte at that position, and a
character absent from the alphabet is mapped as index 0 (`A`, `a` or `0`). -/
theorem normalizeSegmentByType_ascii_class (seg : Bytes) (t : Nat)
    (ht : t = SegmentUpper ∨ t = SegmentLower ∨ t = SegmentDigit) :
    ∃ r, normalizeSegmentByType seg t = .ok r ∧ r.length = seg.length ∧
      ((∀ c ∈ seg, c < 128) →
        (∀ c ∈ r, segmentClass t c) ∧ r = seg.map (remapByte t) ∧
        ∀ (i c : Nat), seg[i]? = some c → c ∉ base62Alphabet →
          r[i]? = some (segmentFirst t)) := by
  obtain ⟨r, hr, hl⟩ := normalizeSegmentByType_total seg t
  refine ⟨r, hr, hl, ?_⟩
  intro hasc
  have ht3 : t < 3 := by
    rcases ht with rfl | rfl | rfl <;> decide
  have hmap : r = seg.map (remapByte t) := by
    rw [normalizeSegmentByType_ascii seg t ht3 hasc] at hr
    cases hr
    rfl
  refine ⟨?_, hmap, ?_⟩
  · intro c hc
    rw [hmap, List.mem_map] at hc
    obtain ⟨x, _, rfl⟩ := hc
    exact remapByte_segmentClass t x ht
  · intro i c hi hc
    rw [hmap, List.getElem?_map, hi, Option.map_some', remapByte_of_absent t c hc]

/-- Witness of C17, amended: "a-Z" with the lower type becomes "aaz"; the `-`
is not in the alphabet and is mapped as index 0. -/
theorem normalizeSegmentByType_ascii_class_witness :
    (∀ c ∈ bytesOf "a-Z", c < 128) ∧
      ∃ r, normalizeSegmentByType (bytesOf "a-Z") SegmentLower = .ok r ∧
        r.length = (bytesOf "a-Z").length ∧ r = bytesOf "aaz" :=
  ⟨by decide,
    let ⟨r, h, hl, hrest⟩ := normalizeSegmentByType_ascii_class (bytesOf "a-Z") SegmentLower
      (Or.inr (Or.inl rfl))
    ⟨r, h, hl, (hrest (by decide)).2.1.trans (by decide)⟩⟩

end Pw
